import Mathlib

/-!
Shallow embedding of the scalar-field painter library
(`ScalarField`, `FloodFill`, `MarchingSquares` and their helpers).

Modelling conventions:
* JS `number` is modelled by `ℚ` (exact arithmetic); grid coordinates that the
  source types as `integer` are modelled by `ℤ`.
* The dense `number[][]` grid is a `List (List ℚ)`; raw index access is total
  with default `0` via `List.getD` and is only relied upon under the same
  `isInside` guards the source uses.
* The imperative stack loops (`floodFrom`, `shadeContour`) are modelled with an
  explicit fuel parameter; `none` means the fuel ran out.  JS `Array.push`/`pop`
  act on the end of the array; we use `List` with `cons` as push and the head as
  top, which realises the same LIFO discipline (including the order in which the
  four neighbour pushes of one pop come back off the stack).
* The object pool (`Stock`) is semantically transparent: every field of a
  recycled node is overwritten before use, so it is not modelled.
-/

/-- Neighbour offsets, in the source's order (`deltas`). -/
def deltas : List (ℤ × ℤ) := [(-1, 0), (1, 0), (0, -1), (0, 1)]

/-- The scalar field: a dense 2D array of values (`ScalarField.values`). -/
structure ScalarField where
  values : List (List ℚ)
deriving DecidableEq

/-- Grid dimension on y (`dimY`): the number of rows. -/
def ScalarField.dimY (g : ScalarField) : ℕ := g.values.length

/-- Grid dimension on x (`dimX`): the length of the first row, 0 if none. -/
def ScalarField.dimX (g : ScalarField) : ℕ := (g.values.headD []).length

/-- Containment test on real-valued coordinates (`isInside`), inclusive of the
upper edge exactly as in the source. -/
def ScalarField.isInside (g : ScalarField) (x y : ℚ) : Bool :=
  decide (0 ≤ x ∧ x ≤ (g.dimX : ℚ) - 1 ∧ 0 ≤ y ∧ y ≤ (g.dimY : ℚ) - 1)

/-- Raw cell read (`get`); total with default 0, used under `isInside` guards. -/
def ScalarField.get (g : ScalarField) (x y : ℤ) : ℚ :=
  (g.values.getD y.toNat []).getD x.toNat 0

/-- Raw cell write (`set`); writes outside the allocated rows are dropped,
which never happens under the source's guards. -/
def ScalarField.set (g : ScalarField) (x y : ℤ) (value : ℚ) : ScalarField :=
  ⟨g.values.set y.toNat ((g.values.getD y.toNat []).set x.toNat value)⟩

/-- A grid is rectangular when every row has length `dimX`; the `ScalarField`
constructor only ever builds such grids. -/
def ScalarField.Rectangular (g : ScalarField) : Prop :=
  ∀ row ∈ g.values, row.length = g.dimX

instance (g : ScalarField) : Decidable g.Rectangular := by
  unfold ScalarField.Rectangular; infer_instance

/-- Square distance between two points (`getDistanceSq`). -/
def getDistanceSq (x1 y1 x2 y2 : ℚ) : ℚ :=
  (x2 - x1) * (x2 - x1) + (y2 - y1) * (y2 - y1)

/-- Square distance between a point and a segment (`getDistanceSqToSegment`). -/
def getDistanceSqToSegment (x y x1 y1 x2 y2 : ℚ) : ℚ :=
  let length2 := getDistanceSq x1 y1 x2 y2
  if length2 = 0 then getDistanceSq x y x1 y1
  else
    let t := max 0 (min 1 (((x - x1) * (x2 - x1) + (y - y1) * (y2 - y1)) / length2))
    getDistanceSq x y (x1 + t * (x2 - x1)) (y1 + t * (y2 - y1))

/-- The guard floor for squared distances (`minDistanceSq = 1/1024/1024`). -/
def minDistanceSq : ℚ := 1 / 1024 / 1024

/-- The integers from `a` to `b` inclusive, the index set of a
`for (let i = a; i <= b; i++)` loop. -/
def intRange (a b : ℤ) : List ℤ :=
  (List.range (b + 1 - a).toNat).map (fun (i : ℕ) => a + (i : ℤ))

/-- Merge a disk into the field (`mergeDisk`): an inverse-square falloff is
combined by `op` into every cell of the scan box.  `cappingFactor` is the
source's `cappingRadiusRatio`. -/
def ScalarField.mergeDisk (g : ScalarField) (centerX centerY radius cappingFactor : ℚ)
    (op : ℚ → ℚ → ℚ) : ScalarField :=
  let cappingRadius := cappingFactor * radius
  let minX := max 0 ⌊centerX - cappingRadius⌋
  let minY := max 0 ⌊centerY - cappingRadius⌋
  let maxX := min ((g.dimX : ℤ) - 1) ⌈centerX + cappingRadius⌉
  let maxY := min ((g.dimY : ℤ) - 1) ⌈centerY + cappingRadius⌉
  let radiusSq := radius * radius
  (intRange minY maxY).foldl (fun g1 (y : ℤ) =>
    (intRange minX maxX).foldl (fun g2 (x : ℤ) =>
      let distanceSq := max minDistanceSq (getDistanceSq (x : ℚ) (y : ℚ) centerX centerY)
      g2.set x y (op (g2.get x y) (radiusSq / distanceSq))) g1) g

/-- Merge a segment into the field (`mergeSegment`); same falloff law as
`mergeDisk` with point-to-segment distance and `thickness` as the radius. -/
def ScalarField.mergeSegment (g : ScalarField) (startX startY endX endY thickness cappingFactor : ℚ)
    (op : ℚ → ℚ → ℚ) : ScalarField :=
  let cappingRadius := cappingFactor * thickness
  let minX := max 0 ⌊min startX endX - cappingRadius⌋
  let minY := max 0 ⌊min startY endY - cappingRadius⌋
  let maxX := min ((g.dimX : ℤ) - 1) ⌈max startX endX + cappingRadius⌉
  let maxY := min ((g.dimY : ℤ) - 1) ⌈max startY endY + cappingRadius⌉
  let thicknessSq := thickness * thickness
  (intRange minY maxY).foldl (fun g1 (y : ℤ) =>
    (intRange minX maxX).foldl (fun g2 (x : ℤ) =>
      let distanceSq :=
        max minDistanceSq (getDistanceSqToSegment (x : ℚ) (y : ℚ) startX startY endX endY)
      g2.set x y (op (g2.get x y) (thicknessSq / distanceSq))) g1) g

/-- Inverse-distance weighted estimate of the field at a real-valued point
(`extrapolate`).  The source iterates the four vertices of the enclosing cell
in the order (sx,sy), (sx,sy+1), (sx+1,sy), (sx+1,sy+1), returning a vertex
value directly when the query point sits exactly on that vertex; `Math.hypot`
forces the result into `ℝ`. -/
noncomputable def ScalarField.extrapolate (g : ScalarField) (x y : ℚ) : ℝ :=
  let squareX : ℤ := ⌊x⌋
  let squareY : ℤ := ⌊y⌋
  if squareX < 0 ∨ squareY < 0 ∨ (g.dimX : ℤ) - 1 ≤ squareX ∨ (g.dimY : ℤ) - 1 ≤ squareY then 0
  else if (squareX : ℚ) = x ∧ (squareY : ℚ) = y then (g.get squareX squareY : ℝ)
  else if (squareX : ℚ) = x ∧ ((squareY + 1 : ℤ) : ℚ) = y then (g.get squareX (squareY + 1) : ℝ)
  else if ((squareX + 1 : ℤ) : ℚ) = x ∧ (squareY : ℚ) = y then (g.get (squareX + 1) squareY : ℝ)
  else if ((squareX + 1 : ℤ) : ℚ) = x ∧ ((squareY + 1 : ℤ) : ℚ) = y then
    (g.get (squareX + 1) (squareY + 1) : ℝ)
  else
    let dist : ℤ → ℤ → ℝ := fun vx vy =>
      Real.sqrt (((vx : ℝ) - (x : ℚ)) ^ 2 + ((vy : ℝ) - (y : ℚ)) ^ 2)
    let weighedValueSum :=
      (g.get squareX squareY : ℝ) / dist squareX squareY
        + (g.get squareX (squareY + 1) : ℝ) / dist squareX (squareY + 1)
        + (g.get (squareX + 1) squareY : ℝ) / dist (squareX + 1) squareY
        + (g.get (squareX + 1) (squareY + 1) : ℝ) / dist (squareX + 1) (squareY + 1)
    let weightSum :=
      1 / dist squareX squareY + 1 / dist squareX (squareY + 1) + 1 / dist (squareX + 1) squareY
        + 1 / dist (squareX + 1) (squareY + 1)
    weighedValueSum / weightSum

/-- A flood-stack node (`Node`): a grid cell. -/
structure Node where
  x : ℤ
  y : ℤ
deriving DecidableEq

/-- A contour wavefront node (`ContourNode`): a grid cell together with the
seed coordinates that anchored its distance computation and the contour value
written for it. -/
structure ContourNode where
  x : ℤ
  y : ℤ
  originX : ℚ
  originY : ℚ
  value : ℚ
deriving DecidableEq

/-- Contour-seed admission (`checkAnAddContourNode`): for an in-bounds cell,
flooring the squared distance to the seed at `minDistanceSq`, ask the
contour-value function; on a value, write it into the grid and queue a
wavefront node carrying the same seed. -/
def checkAnAddContourNode (getContourValue : ℚ → ℚ → Option ℚ) (g : ScalarField)
    (next : List ContourNode) (nodeX nodeY : ℤ) (originX originY : ℚ) :
    ScalarField × List ContourNode :=
  if g.isInside (nodeX : ℚ) (nodeY : ℚ) then
    let deltaX := (nodeX : ℚ) - originX
    let deltaY := (nodeY : ℚ) - originY
    let distanceSq := max minDistanceSq (deltaX * deltaX + deltaY * deltaY)
    match getContourValue (g.get nodeX nodeY) distanceSq with
    | some value => (g.set nodeX nodeY value, ⟨nodeX, nodeY, originX, originY, value⟩ :: next)
    | none => (g, next)
  else (g, next)

/-- State of the flood phase: the grid, the flood stack and the contour seeds
accumulated for the shading phase (`nextContourStack`). -/
structure FloodState where
  g : ScalarField
  stack : List Node
  next : List ContourNode

/-- One neighbour visit of the flood loop body: inside the grid, a floodable
neighbour is pushed, any other neighbour becomes a contour-seed candidate with
the popped cell as seed. -/
def floodVisitOne (canFlood : ℚ → Bool) (getContourValue : ℚ → ℚ → Option ℚ)
    (x y : ℤ) (st : FloodState) (d : ℤ × ℤ) : FloodState :=
  let neighborX := x + d.1
  let neighborY := y + d.2
  if st.g.isInside (neighborX : ℚ) (neighborY : ℚ) then
    if canFlood (st.g.get neighborX neighborY) then
      { st with stack := ⟨neighborX, neighborY⟩ :: st.stack }
    else
      let p := checkAnAddContourNode getContourValue st.g st.next neighborX neighborY
        (x : ℚ) (y : ℚ)
      { st with g := p.1, next := p.2 }
  else st

/-- The four neighbour visits of one flood pop, in `deltas` order. -/
def floodVisit (canFlood : ℚ → Bool) (getContourValue : ℚ → ℚ → Option ℚ)
    (x y : ℤ) (st : FloodState) : FloodState :=
  deltas.foldl (floodVisitOne canFlood getContourValue x y) st

/-- The flood loop of `floodFrom`: pop a cell, set it to the filling value,
visit its four neighbours; stop when the stack is empty.  `none` when the fuel
runs out. -/
def floodLoop (canFlood : ℚ → Bool) (fillingValue : ℚ)
    (getContourValue : ℚ → ℚ → Option ℚ) :
    ℕ → FloodState → Option (ScalarField × List ContourNode)
  | 0, _ => none
  | _ + 1, ⟨g, [], next⟩ => some (g, next)
  | fuel + 1, ⟨g, node :: rest, next⟩ =>
    floodLoop canFlood fillingValue getContourValue fuel
      (floodVisit canFlood getContourValue node.x node.y
        ⟨g.set node.x node.y fillingValue, rest, next⟩)

/-- The four neighbour expansions of one shading pop, reusing the node's own
seed coordinates. -/
def shadeVisit (getContourValue : ℚ → ℚ → Option ℚ) (g : ScalarField)
    (next : List ContourNode) (node : ContourNode) : ScalarField × List ContourNode :=
  deltas.foldl (fun p d =>
    checkAnAddContourNode getContourValue p.1 p.2 (node.x + d.1) (node.y + d.2)
      node.originX node.originY) (g, next)

/-- One popped node of the shading phase: when the grid already holds a value
greater than the node's recorded one the node is dropped, otherwise it expands
to its four neighbours. -/
def shadeStep (getContourValue : ℚ → ℚ → Option ℚ) (g : ScalarField)
    (node : ContourNode) (next : List ContourNode) : ScalarField × List ContourNode :=
  if node.value < g.get node.x node.y then (g, next)
  else shadeVisit getContourValue g next node

/-- The layered wavefront loop of `shadeContour`: drain the current layer one
node at a time, then swap in the next layer; stop when both are empty.  `none`
when the fuel runs out. -/
def shadeLoop (getContourValue : ℚ → ℚ → Option ℚ) :
    ℕ → List ContourNode → List ContourNode → ScalarField → Option ScalarField
  | 0, _, _, _ => none
  | _ + 1, [], [], g => some g
  | fuel + 1, [], node :: rest, g => shadeLoop getContourValue fuel (node :: rest) [] g
  | fuel + 1, node :: rest, next, g =>
    let p := shadeStep getContourValue g node next
    shadeLoop getContourValue fuel rest p.2 p.1

/-- The contour-value function of `fillFrom`: an inverse-square falloff,
admitted below the capping radius while it exceeds the current field value. -/
def fillGetContourValue (thicknessSq cappingRadiusSq : ℚ) : ℚ → ℚ → Option ℚ :=
  fun fieldValue distanceSq =>
    let value := thicknessSq / distanceSq
    if fieldValue < value ∧ distanceSq < cappingRadiusSq then some value else none

/-- The contour-value function of `unfillFrom`: the mirror law, admitted below
the capping radius while it is below the current field value. -/
def unfillGetContourValue (thicknessSq cappingRadiusSq : ℚ) : ℚ → ℚ → Option ℚ :=
  fun fieldValue distanceSq =>
    let value := distanceSq / thicknessSq
    if value < fieldValue ∧ distanceSq < cappingRadiusSq then some value else none

/-- The initial flood stack of `floodFrom`: the rounded origin cell when it is
inside the grid and floodable, nothing otherwise. -/
def floodSeed (canFlood : ℚ → Bool) (g : ScalarField) (originX originY : ℚ) : List Node :=
  let x := round originX
  let y := round originY
  if g.isInside (x : ℚ) (y : ℚ) && canFlood (g.get x y) then [⟨x, y⟩] else []

/-- Fill an area from a given location (`fillFrom`), with fuel: the flood phase
followed by the contour-shading phase. -/
def ScalarField.fillFromF (g : ScalarField) (fuel : ℕ)
    (originX originY valueMax thickness cappingFactor : ℚ) : Option ScalarField :=
  let thicknessSq := thickness * thickness
  let fillingValue := max valueMax (thicknessSq * 1024 * 1024)
  let cappingRadius := cappingFactor * thickness
  let cappingRadiusSq := cappingRadius * cappingRadius
  let getContourValue := fillGetContourValue thicknessSq cappingRadiusSq
  let canFlood : ℚ → Bool := fun fieldValue => decide (fieldValue < valueMax)
  match floodLoop canFlood fillingValue getContourValue fuel
      ⟨g, floodSeed canFlood g originX originY, []⟩ with
  | none => none
  | some (g1, next) => shadeLoop getContourValue fuel next [] g1

/-- Unfill an area from a given location (`unfillFrom`), with fuel. -/
def ScalarField.unfillFromF (g : ScalarField) (fuel : ℕ)
    (originX originY valueMin thickness cappingFactor : ℚ) : Option ScalarField :=
  let fillingValue : ℚ := 0
  let thicknessSq := thickness * thickness
  let cappingRadius := cappingFactor * thickness
  let cappingRadiusSq := cappingRadius * cappingRadius
  let getContourValue := unfillGetContourValue thicknessSq cappingRadiusSq
  let canFlood : ℚ → Bool := fun fieldValue => decide (valueMin < fieldValue)
  match floodLoop canFlood fillingValue getContourValue fuel
      ⟨g, floodSeed canFlood g originX originY, []⟩ with
  | none => none
  | some (g1, next) => shadeLoop getContourValue fuel next [] g1

/-- Side/corner marker `South`. -/
def South : ℕ := 0

/-- Side/corner marker `East`. -/
def East : ℕ := 1

/-- Side/corner marker `North`. -/
def North : ℕ := 2

/-- Side/corner marker `West`. -/
def West : ℕ := 3

/-- Side/corner marker `SouthWest`. -/
def SouthWest : ℕ := 4

/-- Side/corner marker `SouthEast`. -/
def SouthEast : ℕ := 5

/-- Side/corner marker `NorthEast`. -/
def NorthEast : ℕ := 6

/-- Side/corner marker `NorthWest`. -/
def NorthWest : ℕ := 7

/-- The fill lookup table (`marchingSquaresFillVertices`): for each of the 16
corner-sign cases, the ordered vertex walk of one closed polygon. -/
def marchingSquaresFillVertices : List (List ℕ) :=
  [[],
   [South, West, SouthWest],
   [East, South, SouthEast],
   [East, West, SouthWest, SouthEast],

   [North, East, NorthEast],
   [South, SouthWest, West, North, NorthEast, East],
   [South, North, NorthEast, SouthEast],
   [West, North, NorthEast, SouthEast, SouthWest],

   [West, North, NorthWest],
   [North, South, SouthWest, NorthWest],
   [South, West, NorthWest, North, East, SouthEast],
   [North, East, SouthEast, SouthWest, NorthWest],

   [East, West, NorthWest, NorthEast],
   [East, South, SouthWest, NorthWest, NorthEast],
   [South, West, NorthWest, NorthEast, SouthEast],
   []]

/-- The 4-bit marching-squares case of a cell (`getSquareIndex`): one bit per
corner whose value exceeds the threshold (SW=1, SE=2, NE=4, NW=8). -/
def getSquareIndex (g : ScalarField) (x y : ℤ) (threshold : ℚ) : ℕ :=
  (if threshold < g.get x (y + 1) then 1 else 0)
    + (if threshold < g.get (x + 1) (y + 1) then 2 else 0)
    + (if threshold < g.get (x + 1) y then 4 else 0)
    + (if threshold < g.get x y then 8 else 0)

/-- The case index actually drawn: `getSquareIndex`, inverted to `15 - index`
when `drawUnder` is set. -/
def squareIndexDrawn (g : ScalarField) (threshold : ℚ) (drawUnder : Bool) (x y : ℤ) : ℕ :=
  if drawUnder then 15 - getSquareIndex g x y threshold else getSquareIndex g x y threshold

/-- The mean of two corners' x coordinates weighted by the opposite corner's
distance to the threshold (`betweenX`). -/
def betweenX (g : ScalarField) (indexX1 indexY1 indexX2 indexY2 : ℤ) (threshold : ℚ) : ℚ :=
  let value1 := g.get indexX1 indexY1
  let value2 := g.get indexX2 indexY2
  let weight1 := |value1 - threshold|
  let weight2 := |value2 - threshold|
  (weight2 * indexX1 + weight1 * indexX2) / (weight1 + weight2)

/-- The mean of two corners' y coordinates weighted by the opposite corner's
distance to the threshold (`betweenY`). -/
def betweenY (g : ScalarField) (indexX1 indexY1 indexX2 indexY2 : ℤ) (threshold : ℚ) : ℚ :=
  let value1 := g.get indexX1 indexY1
  let value2 := g.get indexX2 indexY2
  let weight1 := |value1 - threshold|
  let weight2 := |value2 - threshold|
  (weight2 * indexY1 + weight1 * indexY2) / (weight1 + weight2)

/-- The point for a side/corner marker of a cell (`calcPoint`). -/
def calcPoint (g : ScalarField) (side : ℕ) (indexX indexY : ℤ) (threshold : ℚ) : ℚ × ℚ :=
  if side = South then
    (betweenX g indexX (indexY + 1) (indexX + 1) (indexY + 1) threshold, ((indexY + 1 : ℤ) : ℚ))
  else if side = East then
    (((indexX + 1 : ℤ) : ℚ), betweenY g (indexX + 1) indexY (indexX + 1) (indexY + 1) threshold)
  else if side = North then
    (betweenX g indexX indexY (indexX + 1) indexY threshold, (indexY : ℚ))
  else if side = West then
    ((indexX : ℚ), betweenY g indexX indexY indexX (indexY + 1) threshold)
  else if side = SouthWest then ((indexX : ℚ), ((indexY + 1 : ℤ) : ℚ))
  else if side = SouthEast then (((indexX + 1 : ℤ) : ℚ), ((indexY + 1 : ℤ) : ℚ))
  else if side = NorthEast then (((indexX + 1 : ℤ) : ℚ), (indexY : ℚ))
  else if side = NorthWest then ((indexX : ℚ), (indexY : ℚ))
  else (0, 0)

/-- One call received by the `ShapePainter` collaborator. -/
inductive PEvent where
  | drawRectangle (left top right bottom : ℚ)
  | beginPath (x y : ℚ)
  | lineTo (x y : ℚ)
  | closePath
  | endPath (squareX squareY : ℤ)
  | onFilledSquareChange (squareX squareY : ℤ)
deriving DecidableEq

/-- The closed polygon a non-degenerate cell emits in `fillContour`:
`beginPath` at the first table vertex, `lineTo` the rest, then
`closePath`/`endPath`. -/
def polygonEvents (g : ScalarField) (threshold : ℚ) (squareX squareY : ℤ)
    (squareIndex : ℕ) : List PEvent :=
  match marchingSquaresFillVertices.getD squareIndex [] with
  | [] => []
  | v0 :: vs =>
    let p0 := calcPoint g v0 squareX squareY threshold
    PEvent.beginPath p0.1 p0.2 ::
      (vs.map fun s =>
        let p := calcPoint g s squareX squareY threshold
        PEvent.lineTo p.1 p.2)
      ++ [PEvent.closePath, PEvent.endPath squareX squareY]

/-- One cell of a `fillContour` row scan.  The state is the pending run start
`first15SquareX` (`-1` when no run is open) and the events emitted so far; the
cell's case is read from `idx` (in `fillContour` this is the drawn square
index of the grid). -/
def fillContourStep (g : ScalarField) (idx : ℤ → ℕ) (threshold : ℚ) (maxX squareY : ℤ)
    (st : ℤ × List PEvent) (squareX : ℤ) : ℤ × List PEvent :=
  let first15SquareX := st.1
  let acc := st.2 ++ [PEvent.onFilledSquareChange squareX squareY]
  let squareIndex := idx squareX
  let first15SquareX := if first15SquareX = -1 ∧ squareIndex = 15 then squareX else first15SquareX
  let st1 : ℤ × List PEvent :=
    if first15SquareX ≠ -1 then
      if squareIndex ≠ 15 then
        (-1, acc ++ [PEvent.drawRectangle (first15SquareX : ℚ) (squareY : ℚ)
          (squareX : ℚ) ((squareY + 1 : ℤ) : ℚ)])
      else if squareX = maxX - 2 then
        (-1, acc ++ [PEvent.drawRectangle (first15SquareX : ℚ) (squareY : ℚ)
          ((squareX + 1 : ℤ) : ℚ) ((squareY + 1 : ℤ) : ℚ)])
      else (first15SquareX, acc)
    else (first15SquareX, acc)
  if squareIndex ≠ 0 ∧ squareIndex ≠ 15 then
    (st1.1, st1.2 ++ polygonEvents g threshold squareX squareY squareIndex)
  else st1

/-- One row of the `fillContour` scan, with the cell classification abstracted
into `idx`. -/
def fillContourRow (g : ScalarField) (idx : ℤ → ℕ) (threshold : ℚ)
    (minX maxX squareY : ℤ) : List PEvent :=
  ((intRange minX (maxX - 2)).foldl (fillContourStep g idx threshold maxX squareY) (-1, [])).2

/-- Draw the field squares (`fillContour`): a row-major scan emitting one
polygon per non-degenerate cell and one rectangle per maximal run of case-15
cells, reported as a list of `ShapePainter` calls. -/
def fillContour (g : ScalarField) (minX minY maxX maxY : ℤ) (threshold : ℚ)
    (drawUnder : Bool) : List PEvent :=
  (intRange minY (maxY - 2)).foldl (fun acc squareY =>
    acc ++ fillContourRow g (fun squareX => squareIndexDrawn g threshold drawUnder squareX squareY)
      threshold minX maxX squareY) []

/-- 4-adjacency between grid cells, via the source's `deltas`. -/
def Adjacent (c d : ℤ × ℤ) : Prop := ∃ δ ∈ deltas, d = (c.1 + δ.1, c.2 + δ.2)

/-- A 4-connected chain of cells all satisfying `P`, built from its endpoint. -/
inductive Chain (P : ℤ × ℤ → Prop) : ℤ × ℤ → ℤ × ℤ → Prop where
  | refl (c : ℤ × ℤ) : P c → Chain P c c
  | snoc (a b c : ℤ × ℤ) : Chain P a b → Adjacent b c → P c → Chain P a c

/-- A cell is inside the grid and floodable for `fillFrom(_, _, valueMax, ...)`. -/
def FloodableLt (g : ScalarField) (valueMax : ℚ) (c : ℤ × ℤ) : Prop :=
  g.isInside (c.1 : ℚ) (c.2 : ℚ) = true ∧ g.get c.1 c.2 < valueMax

/-- `c` is 4-connected-reachable from `o` through cells of value < `valueMax`. -/
def Reaches (g : ScalarField) (valueMax : ℚ) (o c : ℤ × ℤ) : Prop :=
  Chain (FloodableLt g valueMax) o c

/-- The in-bounds cells of a grid, as a finite set. -/
def cellFinset (g : ScalarField) : Finset (ℤ × ℤ) :=
  Finset.Icc 0 ((g.dimX : ℤ) - 1) ×ˢ Finset.Icc 0 ((g.dimY : ℤ) - 1)

/-- The number of in-bounds cells whose value still satisfies the flood
predicate; first component of the flood-loop termination measure. -/
def floodableCount (canFlood : ℚ → Bool) (g : ScalarField) : ℕ :=
  ((cellFinset g).filter (fun c => canFlood (g.get c.1 c.2) = true)).card

/-- The number of flood-stack entries whose cell is no longer floodable;
second component of the flood-loop termination measure. -/
def staleCount (canFlood : ℚ → Bool) (g : ScalarField) (stack : List Node) : ℕ :=
  stack.countP (fun n => !canFlood (g.get n.x n.y))

/-- The seed coordinates carried by a list of wavefront nodes. -/
def nodeOrigins (l : List ContourNode) : Finset (ℚ × ℚ) :=
  (l.map fun n => (n.originX, n.originY)).toFinset

/-- All contour values `φ` can produce from a seed in `O` and an in-bounds
cell; a finite universe for the shading-phase termination measure. -/
def contourValues (φ : ℚ → ℚ) (g : ScalarField) (O : Finset (ℚ × ℚ)) : Finset ℚ :=
  ((cellFinset g) ×ˢ O).image fun p =>
    φ (max minDistanceSq
      (((p.1.1 : ℚ) - p.2.1) * ((p.1.1 : ℚ) - p.2.1)
        + ((p.1.2 : ℚ) - p.2.2) * ((p.1.2 : ℚ) - p.2.2)))

/-- Sum over all cells of how many values of `V` are still `rel`-above the
cell's current value; every admitted contour write strictly decreases it. -/
def shadePotential (rel : ℚ → ℚ → Prop) [DecidableRel rel] (V : Finset ℚ)
    (g : ScalarField) : ℕ :=
  Finset.sum (cellFinset g) fun c => (V.filter (rel (g.get c.1 c.2))).card

/-- The shading-loop termination measure. -/
def shadeMeasure (rel : ℚ → ℚ → Prop) [DecidableRel rel] (V : Finset ℚ)
    (g : ScalarField) (cur next : List ContourNode) : ℕ :=
  2 * (shadePotential rel V g + cur.length + next.length) + (if cur = [] then 1 else 0)

/-- The repository test fixture: an 8×8 grid with a hollow square of 1s. -/
def squareFixture : ScalarField :=
  ⟨[[0, 0, 0, 0, 0, 0, 0, 0],
    [0, 0, 1, 1, 1, 1, 0, 0],
    [0, 1, 0, 0, 0, 0, 1, 0],
    [0, 1, 0, 0, 0, 0, 1, 0],
    [0, 1, 0, 0, 0, 0, 1, 0],
    [0, 1, 0, 0, 0, 0, 1, 0],
    [0, 0, 1, 1, 1, 1, 0, 0],
    [0, 0, 0, 0, 0, 0, 0, 0]]⟩

/-- The expected result of the repository test: the sixteen interior cells
filled with 1. -/
def squareFixtureFilled : ScalarField :=
  ⟨[[0, 0, 0, 0, 0, 0, 0, 0],
    [0, 0, 1, 1, 1, 1, 0, 0],
    [0, 1, 1, 1, 1, 1, 1, 0],
    [0, 1, 1, 1, 1, 1, 1, 0],
    [0, 1, 1, 1, 1, 1, 1, 0],
    [0, 1, 1, 1, 1, 1, 1, 0],
    [0, 0, 1, 1, 1, 1, 0, 0],
    [0, 0, 0, 0, 0, 0, 0, 0]]⟩

/-- The crossing point of standard linear interpolation, written exactly as
the specification describes it: `c1 + (threshold - v1)/(v2 - v1) * (c2 - c1)`. -/
def lerpCrossing (c1 v1 c2 v2 threshold : ℚ) : ℚ :=
  c1 + (threshold - v1) / (v2 - v1) * (c2 - c1)

/-! Basic facts about grid access. -/

theorem list_getD_set {α : Type} (l : List α) (i j : ℕ) (v d : α) :
    (l.set i v).getD j d = if i = j ∧ j < l.length then v else l.getD j d := by
  induction l generalizing i j with
  | nil => simp
  | cons a t ih =>
    cases i with
    | zero =>
      cases j with
      | zero => simp
      | succ j' => simp
    | succ i' =>
      cases j with
      | zero => simp
      | succ j' =>
        rw [show ((a :: t).set (i' + 1) v) = a :: t.set i' v by simp,
          List.getD_cons_succ, List.getD_cons_succ, ih i' j']
        by_cases h : i' = j' ∧ j' < t.length
        · rw [if_pos h, if_pos (by simp only [List.length_cons]; omega)]
        · rw [if_neg h, if_neg (by simp only [List.length_cons]; omega)]

theorem dimY_set (g : ScalarField) (x y : ℤ) (v : ℚ) : (g.set x y v).dimY = g.dimY := by
  simp [ScalarField.set, ScalarField.dimY]

theorem dimX_set (g : ScalarField) (x y : ℤ) (v : ℚ) : (g.set x y v).dimX = g.dimX := by
  unfold ScalarField.set ScalarField.dimX
  cases hv : g.values with
  | nil => simp
  | cons r t =>
    cases hn : y.toNat with
    | zero => simp
    | succ n => simp

theorem rect_set (g : ScalarField) (x y : ℤ) (v : ℚ) (hR : g.Rectangular) :
    (g.set x y v).Rectangular := by
  intro row hrow
  rw [dimX_set]
  by_cases hy : y.toNat < g.values.length
  · rcases List.mem_or_eq_of_mem_set hrow with h | h
    · exact hR row h
    · subst h
      rw [List.length_set]
      exact hR _ (by rw [List.getD_eq_getElem _ _ hy]; exact List.getElem_mem hy)
  · have hid : (g.set x y v).values = g.values :=
      List.set_eq_of_length_le (le_of_not_lt hy)
    rw [hid] at hrow
    exact hR row hrow

theorem isInside_intCast (g : ScalarField) (x y : ℤ) :
    g.isInside (x : ℚ) (y : ℚ) = true ↔
      0 ≤ x ∧ x ≤ (g.dimX : ℤ) - 1 ∧ 0 ≤ y ∧ y ≤ (g.dimY : ℤ) - 1 := by
  unfold ScalarField.isInside
  rw [decide_eq_true_iff]
  have hx : ((g.dimX : ℚ) - 1) = (((g.dimX : ℤ) - 1 : ℤ) : ℚ) := by push_cast; ring
  have hy : ((g.dimY : ℚ) - 1) = (((g.dimY : ℤ) - 1 : ℤ) : ℚ) := by push_cast; ring
  rw [hx, hy]
  constructor
  · rintro ⟨h1, h2, h3, h4⟩
    exact ⟨by exact_mod_cast h1, by exact_mod_cast h2, by exact_mod_cast h3,
      by exact_mod_cast h4⟩
  · rintro ⟨h1, h2, h3, h4⟩
    exact ⟨by exact_mod_cast h1, by exact_mod_cast h2, by exact_mod_cast h3,
      by exact_mod_cast h4⟩

theorem mem_cellFinset (g : ScalarField) (c : ℤ × ℤ) :
    c ∈ cellFinset g ↔ g.isInside (c.1 : ℚ) (c.2 : ℚ) = true := by
  rw [isInside_intCast]
  simp [cellFinset, Finset.mem_product, Finset.mem_Icc, and_assoc]

theorem isInside_set (g : ScalarField) (x y : ℤ) (v : ℚ) (a b : ℚ) :
    (g.set x y v).isInside a b = g.isInside a b := by
  unfold ScalarField.isInside
  rw [dimX_set, dimY_set]

theorem rowLen_of_inside (g : ScalarField) (hR : g.Rectangular) {y : ℤ}
    (h0 : 0 ≤ y) (h1 : y ≤ (g.dimY : ℤ) - 1) :
    (g.values.getD y.toNat []).length = g.dimX := by
  have hy : y.toNat < g.values.length := by
    have : y < g.dimY := by omega
    unfold ScalarField.dimY at this
    omega
  rw [List.getD_eq_getElem _ _ hy]
  exact hR _ (List.getElem_mem hy)

theorem get_set_eq (g : ScalarField) (hR : g.Rectangular) {x y : ℤ}
    (h : g.isInside (x : ℚ) (y : ℚ) = true) (v : ℚ) : (g.set x y v).get x y = v := by
  rw [isInside_intCast] at h
  obtain ⟨hx0, hx1, hy0, hy1⟩ := h
  unfold ScalarField.get ScalarField.set
  have hy : y.toNat < g.values.length := by
    unfold ScalarField.dimY at hy1; omega
  have hx : x.toNat < (g.values.getD y.toNat []).length := by
    rw [rowLen_of_inside g hR hy0 hy1]; omega
  rw [list_getD_set, if_pos ⟨rfl, hy⟩, list_getD_set, if_pos ⟨rfl, hx⟩]

theorem get_set_ne (g : ScalarField) {x y x' y' : ℤ}
    (h0x : 0 ≤ x) (h0y : 0 ≤ y) (h0x' : 0 ≤ x') (h0y' : 0 ≤ y')
    (hne : (x', y') ≠ (x, y)) (v : ℚ) : (g.set x y v).get x' y' = g.get x' y' := by
  unfold ScalarField.get ScalarField.set
  by_cases hyy : y.toNat = y'.toNat
  · have hy : y' = y := by omega
    have hx : x' ≠ x := by
      intro hc; exact hne (by rw [hc, hy])
    have hxx : x.toNat ≠ x'.toNat := by omega
    rw [list_getD_set]
    by_cases hlt : y'.toNat < g.values.length
    · rw [if_pos ⟨hyy, hyy ▸ hlt⟩, list_getD_set, if_neg (fun hc => hxx hc.1), hyy]
    · rw [if_neg (fun hc => hlt (by omega))]
  · rw [list_getD_set, if_neg (fun hc => hyy hc.1)]

theorem mem_intRange {a b x : ℤ} : x ∈ intRange a b ↔ a ≤ x ∧ x ≤ b := by
  unfold intRange
  rw [List.mem_map]
  constructor
  · rintro ⟨i, hi, rfl⟩
    rw [List.mem_range] at hi
    omega
  · rintro ⟨h1, h2⟩
    refine ⟨(x - a).toNat, ?_, by omega⟩
    rw [List.mem_range]
    omega

theorem nodup_intRange (a b : ℤ) : (intRange a b).Nodup := by
  unfold intRange
  refine List.Nodup.map ?_ (List.nodup_range _)
  intro i j h
  have h' : a + (i : ℤ) = a + (j : ℤ) := h
  omega

/-! The row/column structure of the merge scans. -/

theorem mergeRow_get (f : ℤ → ℤ → ℚ → ℚ) (y : ℤ) (xs : List ℤ) :
    ∀ (g : ScalarField), g.Rectangular →
    (∀ x ∈ xs, g.isInside (x : ℚ) (y : ℚ) = true) → xs.Nodup →
    (∀ x' y' : ℤ, g.isInside (x' : ℚ) (y' : ℚ) = true →
      (xs.foldl (fun g2 (x : ℤ) => g2.set x y (f x y (g2.get x y))) g).get x' y' =
        if x' ∈ xs ∧ y' = y then f x' y' (g.get x' y') else g.get x' y') ∧
    (xs.foldl (fun g2 (x : ℤ) => g2.set x y (f x y (g2.get x y))) g).Rectangular ∧
    (xs.foldl (fun g2 (x : ℤ) => g2.set x y (f x y (g2.get x y))) g).dimX = g.dimX ∧
    (xs.foldl (fun g2 (x : ℤ) => g2.set x y (f x y (g2.get x y))) g).dimY = g.dimY := by
  induction xs with
  | nil =>
    intro g hR _ _
    exact ⟨fun x' y' _ => by simp, hR, rfl, rfl⟩
  | cons x xs ih =>
    intro g hR hin hnd
    have hxin := hin x (List.mem_cons_self x xs)
    have hxb := (isInside_intCast g x y).1 hxin
    have hR1 : (g.set x y (f x y (g.get x y))).Rectangular := rect_set g x y _ hR
    have hin1 : ∀ x'' ∈ xs, (g.set x y (f x y (g.get x y))).isInside (x'' : ℚ) (y : ℚ) = true :=
      fun x'' hx'' => by
        rw [isInside_set]; exact hin x'' (List.mem_cons_of_mem x hx'')
    obtain ⟨ihget, ihR, ihX, ihY⟩ :=
      ih (g.set x y (f x y (g.get x y))) hR1 hin1 hnd.of_cons
    simp only [List.foldl_cons]
    refine ⟨?_, ihR, by rw [ihX, dimX_set], by rw [ihY, dimY_set]⟩
    intro x' y' hin'
    have hin'1 : (g.set x y (f x y (g.get x y))).isInside (x' : ℚ) (y' : ℚ) = true := by
      rw [isInside_set]; exact hin'
    rw [ihget x' y' hin'1]
    have hb' := (isInside_intCast g x' y').1 hin'
    by_cases hcase : x' = x ∧ y' = y
    · obtain ⟨rfl, rfl⟩ := hcase
      have hnotmem : x' ∉ xs := (List.nodup_cons.1 hnd).1
      rw [if_neg (fun hc => hnotmem hc.1), if_pos ⟨List.mem_cons_self _ _, rfl⟩,
        get_set_eq g hR hxin]
    · have hne : (x', y') ≠ (x, y) :=
        fun hc => hcase ⟨congrArg Prod.fst hc, congrArg Prod.snd hc⟩
      rw [get_set_ne g hxb.1 hxb.2.2.1 hb'.1 hb'.2.2.1 hne]
      by_cases hmem : x' ∈ xs ∧ y' = y
      · rw [if_pos hmem, if_pos ⟨List.mem_cons_of_mem x hmem.1, hmem.2⟩]
      · rw [if_neg hmem, if_neg ?hng]
        case hng =>
          rintro ⟨hc1, hc2⟩
          rcases List.mem_cons.1 hc1 with h | h
          · exact hcase ⟨h, hc2⟩
          · exact hmem ⟨h, hc2⟩

theorem isInside_congr (g' g : ScalarField) (hX : g'.dimX = g.dimX) (hY : g'.dimY = g.dimY)
    (a b : ℚ) : g'.isInside a b = g.isInside a b := by
  unfold ScalarField.isInside
  rw [hX, hY]

theorem mergeScan_get (f : ℤ → ℤ → ℚ → ℚ) (xs : List ℤ) (ys : List ℤ) :
    ∀ (g : ScalarField), g.Rectangular →
    (∀ y ∈ ys, ∀ x ∈ xs, g.isInside (x : ℚ) (y : ℚ) = true) → ys.Nodup → xs.Nodup →
    (∀ x' y' : ℤ, g.isInside (x' : ℚ) (y' : ℚ) = true →
      (ys.foldl (fun g1 (y : ℤ) =>
          xs.foldl (fun g2 (x : ℤ) => g2.set x y (f x y (g2.get x y))) g1) g).get x' y' =
        if x' ∈ xs ∧ y' ∈ ys then f x' y' (g.get x' y') else g.get x' y') ∧
    (ys.foldl (fun g1 (y : ℤ) =>
        xs.foldl (fun g2 (x : ℤ) => g2.set x y (f x y (g2.get x y))) g1) g).Rectangular ∧
    (ys.foldl (fun g1 (y : ℤ) =>
        xs.foldl (fun g2 (x : ℤ) => g2.set x y (f x y (g2.get x y))) g1) g).dimX = g.dimX ∧
    (ys.foldl (fun g1 (y : ℤ) =>
        xs.foldl (fun g2 (x : ℤ) => g2.set x y (f x y (g2.get x y))) g1) g).dimY = g.dimY := by
  induction ys with
  | nil =>
    intro g hR _ _ _
    exact ⟨fun x' y' _ => by simp, hR, rfl, rfl⟩
  | cons y ys ih =>
    intro g hR hin hndy hndx
    have hrowin : ∀ x ∈ xs, g.isInside (x : ℚ) (y : ℚ) = true :=
      hin y (List.mem_cons_self y ys)
    obtain ⟨rget, rR, rX, rY⟩ := mergeRow_get f y xs g hR hrowin hndx
    set g1 := xs.foldl (fun g2 (x : ℤ) => g2.set x y (f x y (g2.get x y))) g with hg1
    have hIns1 : ∀ a b : ℚ, g1.isInside a b = g.isInside a b := isInside_congr g1 g rX rY
    have hin1 : ∀ y'' ∈ ys, ∀ x ∈ xs, g1.isInside (x : ℚ) (y'' : ℚ) = true := by
      intro y'' hy'' x hx
      rw [hIns1]
      exact hin y'' (List.mem_cons_of_mem y hy'') x hx
    obtain ⟨ihget, ihR, ihX, ihY⟩ := ih g1 rR hin1 hndy.of_cons hndx
    simp only [List.foldl_cons]
    refine ⟨?_, ihR, by rw [ihX, rX], by rw [ihY, rY]⟩
    intro x' y' hin'
    have hin'1 : g1.isInside (x' : ℚ) (y' : ℚ) = true := by rw [hIns1]; exact hin'
    rw [ihget x' y' hin'1, rget x' y' hin']
    by_cases hcy : y' = y
    · subst hcy
      have hnot : y' ∉ ys := (List.nodup_cons.1 hndy).1
      rw [if_neg (show ¬(x' ∈ xs ∧ y' ∈ ys) from fun hc => hnot hc.2)]
      by_cases hcx : x' ∈ xs
      · rw [if_pos (show x' ∈ xs ∧ y' = y' from ⟨hcx, rfl⟩),
          if_pos (show x' ∈ xs ∧ y' ∈ y' :: ys from ⟨hcx, List.mem_cons_self y' ys⟩)]
      · rw [if_neg (show ¬(x' ∈ xs ∧ y' = y') from fun hc => hcx hc.1),
          if_neg (show ¬(x' ∈ xs ∧ y' ∈ y' :: ys) from fun hc => hcx hc.1)]
    · rw [if_neg (show ¬(x' ∈ xs ∧ y' = y) from fun hc => hcy hc.2)]
      by_cases hcm : x' ∈ xs ∧ y' ∈ ys
      · rw [if_pos hcm,
          if_pos (show x' ∈ xs ∧ y' ∈ y :: ys from ⟨hcm.1, List.mem_cons_of_mem y hcm.2⟩)]
      · rw [if_neg hcm, if_neg (show ¬(x' ∈ xs ∧ y' ∈ y :: ys) from ?hng2)]
        case hng2 =>
          rintro ⟨hc1, hc2⟩
          rcases List.mem_cons.1 hc2 with h | h
          · exact hcy h
          · exact hcm ⟨hc1, h⟩

/-- C4, counterexample: on a 3×3 zero grid, `mergeDisk` at the centre with
radius 1 and capping ratio 1 rewrites the corner cell (0,0) even though its
Euclidean distance to the centre (√2) exceeds the capping radius 1 — the scan
box is applied without any Euclidean test, so the claim's "cells beyond the
capping radius retain their previous value" fails. -/
theorem mergeDisk_corner_changed_beyond_cap :
    (1 * 1 : ℚ) < getDistanceSq 0 0 1 1 ∧
    (ScalarField.mergeDisk ⟨[[0, 0, 0], [0, 0, 0], [0, 0, 0]]⟩ 1 1 1 1 (fun _ b => b)).get 0 0 ≠
      (⟨[[0, 0, 0], [0, 0, 0], [0, 0, 0]]⟩ : ScalarField).get 0 0 := by
  with_unfolding_all decide

/-- C4, amended: `mergeDisk(cx, cy, radius, cappingRatio, op)` combines
`op(current, radius²/max(distance², ε))` into exactly the in-bounds cells of
the Chebyshev scan box `[⌊cx-cappingRatio·radius⌋, ⌈cx+cappingRatio·radius⌉] ×
[⌊cy-cappingRatio·radius⌋, ⌈cy+cappingRatio·radius⌉]`; every in-bounds cell
outside that box keeps exactly its previous value. -/
theorem mergeDisk_get_characterization (g : ScalarField) (hR : g.Rectangular)
    (centerX centerY radius cappingFactor : ℚ) (op : ℚ → ℚ → ℚ) (x y : ℤ)
    (hin : g.isInside (x : ℚ) (y : ℚ) = true) :
    (g.mergeDisk centerX centerY radius cappingFactor op).get x y =
      if max 0 ⌊centerX - cappingFactor * radius⌋ ≤ x ∧
          x ≤ min ((g.dimX : ℤ) - 1) ⌈centerX + cappingFactor * radius⌉ ∧
          max 0 ⌊centerY - cappingFactor * radius⌋ ≤ y ∧
          y ≤ min ((g.dimY : ℤ) - 1) ⌈centerY + cappingFactor * radius⌉ then
        op (g.get x y)
          (radius * radius / max minDistanceSq (getDistanceSq (x : ℚ) (y : ℚ) centerX centerY))
      else g.get x y := by
  have hEq : g.mergeDisk centerX centerY radius cappingFactor op =
      (intRange (max 0 ⌊centerY - cappingFactor * radius⌋)
          (min ((g.dimY : ℤ) - 1) ⌈centerY + cappingFactor * radius⌉)).foldl
        (fun g1 (yy : ℤ) =>
          (intRange (max 0 ⌊centerX - cappingFactor * radius⌋)
              (min ((g.dimX : ℤ) - 1) ⌈centerX + cappingFactor * radius⌉)).foldl
            (fun g2 (xx : ℤ) => g2.set xx yy
              ((fun (xx yy : ℤ) (v : ℚ) => op v
                  (radius * radius /
                    max minDistanceSq (getDistanceSq (xx : ℚ) (yy : ℚ) centerX centerY)))
                xx yy (g2.get xx yy))) g1) g := rfl
  have hbound : ∀ yy ∈ intRange (max 0 ⌊centerY - cappingFactor * radius⌋)
      (min ((g.dimY : ℤ) - 1) ⌈centerY + cappingFactor * radius⌉),
      ∀ xx ∈ intRange (max 0 ⌊centerX - cappingFactor * radius⌋)
        (min ((g.dimX : ℤ) - 1) ⌈centerX + cappingFactor * radius⌉),
      g.isInside (xx : ℚ) (yy : ℚ) = true := by
    intro yy hyy xx hxx
    rw [mem_intRange] at hyy hxx
    rw [isInside_intCast]
    omega
  obtain ⟨hget, _, _, _⟩ := mergeScan_get
    (fun (xx yy : ℤ) (v : ℚ) => op v
      (radius * radius / max minDistanceSq (getDistanceSq (xx : ℚ) (yy : ℚ) centerX centerY)))
    (intRange (max 0 ⌊centerX - cappingFactor * radius⌋)
      (min ((g.dimX : ℤ) - 1) ⌈centerX + cappingFactor * radius⌉))
    (intRange (max 0 ⌊centerY - cappingFactor * radius⌋)
      (min ((g.dimY : ℤ) - 1) ⌈centerY + cappingFactor * radius⌉))
    g hR hbound (nodup_intRange _ _) (nodup_intRange _ _)
  rw [hEq, hget x y hin]
  by_cases hbox : max 0 ⌊centerX - cappingFactor * radius⌋ ≤ x ∧
      x ≤ min ((g.dimX : ℤ) - 1) ⌈centerX + cappingFactor * radius⌉ ∧
      max 0 ⌊centerY - cappingFactor * radius⌋ ≤ y ∧
      y ≤ min ((g.dimY : ℤ) - 1) ⌈centerY + cappingFactor * radius⌉
  · rw [if_pos ⟨mem_intRange.2 ⟨hbox.1, hbox.2.1⟩, mem_intRange.2 ⟨hbox.2.2.1, hbox.2.2.2⟩⟩,
      if_pos hbox]
  · rw [if_neg fun hc => hbox
      ⟨(mem_intRange.1 hc.1).1, (mem_intRange.1 hc.1).2,
        (mem_intRange.1 hc.2).1, (mem_intRange.1 hc.2).2⟩,
      if_neg hbox]

/-- C4, witness for the amended theorem: a concrete instantiation on a 3×3
grid, evaluating both branches of the characterization. -/
theorem mergeDisk_get_characterization_witness :
    (ScalarField.mergeDisk ⟨[[0, 0, 0], [0, 0, 0], [0, 0, 0]]⟩ 1 1 1 1 (fun a b => a + b)).get 2 2 =
      (0 + 1 * 1 / max minDistanceSq (getDistanceSq 2 2 1 1) : ℚ) := by
  have h := mergeDisk_get_characterization ⟨[[0, 0, 0], [0, 0, 0], [0, 0, 0]]⟩
    (by decide) 1 1 1 1 (fun a b => a + b) 2 2 (by with_unfolding_all decide)
  rw [h, if_pos (by with_unfolding_all decide),
    show (⟨[[0, 0, 0], [0, 0, 0], [0, 0, 0]]⟩ : ScalarField).get 2 2 = 0 from by
      with_unfolding_all decide]
  norm_num

/-- C7: a degenerate segment (both endpoints equal) merges exactly like a disk
of the same radius: `mergeSegment(x1, y1, x1, y1, t, r, op)` leaves the grid
in the same state, cell for cell, as `mergeDisk(x1, y1, t, r, op)`.  The scan
boxes coincide because `min x1 x1 = max x1 x1 = x1`, and the zero-length
branch of `getDistanceSqToSegment` is the point distance of `mergeDisk`. -/
theorem mergeSegment_degenerate_eq_mergeDisk (g : ScalarField)
    (x1 y1 thickness cappingFactor : ℚ) (op : ℚ → ℚ → ℚ) :
    g.mergeSegment x1 y1 x1 y1 thickness cappingFactor op =
      g.mergeDisk x1 y1 thickness cappingFactor op := by
  unfold ScalarField.mergeSegment ScalarField.mergeDisk getDistanceSqToSegment
  simp [getDistanceSq, min_self, max_self]

/-- C8, counterexample: with both corner values 2 and 3 on the same side of
threshold 0 (and both different from it), the absolute-difference-weighted
crossing of `betweenX` is 2/5 while standard linear interpolation gives -2;
the two formulas are not equivalent merely because both corners differ from
the threshold. -/
theorem betweenX_ne_lerp_same_side :
    (⟨[[2, 3]]⟩ : ScalarField).get 0 0 ≠ 0 ∧
    (⟨[[2, 3]]⟩ : ScalarField).get 1 0 ≠ 0 ∧
    betweenX ⟨[[2, 3]]⟩ 0 0 1 0 0 ≠
      lerpCrossing 0 ((⟨[[2, 3]]⟩ : ScalarField).get 0 0) 1
        ((⟨[[2, 3]]⟩ : ScalarField).get 1 0) 0 := by
  with_unfolding_all decide

theorem absWeight_eq_lerpCrossing (c1 v1 c2 v2 threshold : ℚ)
    (h : v1 < threshold ∧ threshold < v2 ∨ v2 < threshold ∧ threshold < v1) :
    (|v2 - threshold| * c1 + |v1 - threshold| * c2) / (|v1 - threshold| + |v2 - threshold|) =
      lerpCrossing c1 v1 c2 v2 threshold := by
  unfold lerpCrossing
  rcases h with ⟨h1, h2⟩ | ⟨h1, h2⟩
  · have hsum : -(v1 - threshold) + (v2 - threshold) = v2 - v1 := by ring
    rw [abs_of_neg (by linarith : v1 - threshold < 0),
      abs_of_pos (by linarith : (0 : ℚ) < v2 - threshold), hsum]
    have hne : v2 - v1 ≠ 0 := by intro hc; linarith
    field_simp
    ring
  · have hsum : v1 - threshold + -(v2 - threshold) = v1 - v2 := by ring
    rw [abs_of_pos (by linarith : (0 : ℚ) < v1 - threshold),
      abs_of_neg (by linarith : v2 - threshold < 0), hsum]
    have hne : v1 - v2 ≠ 0 := by intro hc; linarith
    have hne' : v2 - v1 ≠ 0 := by intro hc; linarith
    field_simp
    ring

/-- C8, amended: when the threshold lies strictly between the two corner
values (so in particular both corners differ from it), the crossing computed
by `betweenX`/`betweenY` equals the standard linear-interpolation crossing
`c1 + (threshold-v1)/(v2-v1)·(c2-c1)` in exact rational arithmetic. -/
theorem between_eq_lerpCrossing_opposite_sides (g : ScalarField)
    (indexX1 indexY1 indexX2 indexY2 : ℤ) (threshold : ℚ)
    (h : g.get indexX1 indexY1 < threshold ∧ threshold < g.get indexX2 indexY2 ∨
      g.get indexX2 indexY2 < threshold ∧ threshold < g.get indexX1 indexY1) :
    betweenX g indexX1 indexY1 indexX2 indexY2 threshold =
      lerpCrossing (indexX1 : ℚ) (g.get indexX1 indexY1) (indexX2 : ℚ)
        (g.get indexX2 indexY2) threshold ∧
    betweenY g indexX1 indexY1 indexX2 indexY2 threshold =
      lerpCrossing (indexY1 : ℚ) (g.get indexX1 indexY1) (indexY2 : ℚ)
        (g.get indexX2 indexY2) threshold := by
  constructor
  · unfold betweenX
    exact absWeight_eq_lerpCrossing _ _ _ _ _ h
  · unfold betweenY
    exact absWeight_eq_lerpCrossing _ _ _ _ _ h

/-- C8, witness: on a 1×2 grid with values 0 and 2 and threshold 1, both
crossing formulas agree and give 1/2 for the x coordinate. -/
theorem between_eq_lerpCrossing_witness :
    betweenX ⟨[[0, 2]]⟩ 0 0 1 0 1 =
      lerpCrossing (0 : ℚ) ((⟨[[0, 2]]⟩ : ScalarField).get 0 0) (1 : ℚ)
        ((⟨[[0, 2]]⟩ : ScalarField).get 1 0) 1 ∧
    betweenY ⟨[[0, 2]]⟩ 0 0 1 0 1 =
      lerpCrossing (0 : ℚ) ((⟨[[0, 2]]⟩ : ScalarField).get 0 0) (0 : ℚ)
        ((⟨[[0, 2]]⟩ : ScalarField).get 1 0) 1 := by
  have h := between_eq_lerpCrossing_opposite_sides ⟨[[0, 2]]⟩ 0 0 1 0 1
    (Or.inl (by with_unfolding_all decide))
  exact ⟨h.1, h.2⟩

/-- C9: whenever the enclosing cell `(⌊x⌋, ⌊y⌋)` of the query point falls
outside `[0, width-2] × [0, height-2]`, `extrapolate` returns the defined
default 0 (the guard fires before any array access). -/
theorem extrapolate_out_of_bounds_eq_zero (g : ScalarField) (x y : ℚ)
    (h : ⌊x⌋ < 0 ∨ ⌊y⌋ < 0 ∨ (g.dimX : ℤ) - 2 < ⌊x⌋ ∨ (g.dimY : ℤ) - 2 < ⌊y⌋) :
    g.extrapolate x y = 0 := by
  have hc : ⌊x⌋ < 0 ∨ ⌊y⌋ < 0 ∨ (g.dimX : ℤ) - 1 ≤ ⌊x⌋ ∨ (g.dimY : ℤ) - 1 ≤ ⌊y⌋ := by omega
  simp only [ScalarField.extrapolate]
  rw [if_pos hc]

/-- C9, witness: querying the 3×3 zero grid at (10, 0) returns 0. -/
theorem extrapolate_out_of_bounds_witness :
    (⟨[[0, 0, 0], [0, 0, 0], [0, 0, 0]]⟩ : ScalarField).extrapolate 10 0 = 0 :=
  extrapolate_out_of_bounds_eq_zero _ 10 0 (by with_unfolding_all decide)

/-- C5: on a scan row of six consecutive cells classified
`[15,15,15,3,15,15]` (the classification taken as given via `idx`, since the
drawn square indices are what the row scanner consumes), `fillContour`'s row
pass notifies each cell once and emits exactly one rectangle spanning the
first three cells, one closed polygon for the case-3 cell, and one rectangle
spanning the last two cells — no per-cell rectangles for the case-15 cells.
`0 ≤ minX` keeps the scan left of the `-1` run sentinel, as in any in-grid
scan window. -/
theorem fillContourRow_run_length (g : ScalarField) (threshold : ℚ) (idx : ℤ → ℕ)
    (minX squareY : ℤ) (h0 : 0 ≤ minX)
    (h1 : idx minX = 15) (h2 : idx (minX + 1) = 15) (h3 : idx (minX + 2) = 15)
    (h4 : idx (minX + 3) = 3) (h5 : idx (minX + 4) = 15) (h6 : idx (minX + 5) = 15) :
    fillContourRow g idx threshold minX (minX + 7) squareY =
      [PEvent.onFilledSquareChange minX squareY,
       PEvent.onFilledSquareChange (minX + 1) squareY,
       PEvent.onFilledSquareChange (minX + 2) squareY,
       PEvent.onFilledSquareChange (minX + 3) squareY,
       PEvent.drawRectangle (minX : ℚ) (squareY : ℚ) ((minX + 3 : ℤ) : ℚ)
         ((squareY + 1 : ℤ) : ℚ)]
      ++ polygonEvents g threshold (minX + 3) squareY 3
      ++ [PEvent.onFilledSquareChange (minX + 4) squareY,
          PEvent.onFilledSquareChange (minX + 5) squareY,
          PEvent.drawRectangle ((minX + 4 : ℤ) : ℚ) (squareY : ℚ) ((minX + 6 : ℤ) : ℚ)
            ((squareY + 1 : ℤ) : ℚ)] := by
  have hrange : intRange minX (minX + 7 - 2) =
      [minX, minX + 1, minX + 2, minX + 3, minX + 4, minX + 5] := by
    unfold intRange
    rw [show (minX + 7 - 2 + 1 - minX) = (6 : ℤ) from by ring,
      show ((6 : ℤ).toNat) = 6 from rfl,
      show List.range 6 = [0, 1, 2, 3, 4, 5] from rfl]
    norm_num
  have stepOpen : ∀ (x : ℤ) (acc : List PEvent), idx x = 15 → x ≠ -1 →
      ¬(x = minX + 7 - 2) →
      fillContourStep g idx threshold (minX + 7) squareY (-1, acc) x =
        (x, acc ++ [PEvent.onFilledSquareChange x squareY]) := by
    intro x acc hx hne hnend
    unfold fillContourStep
    norm_num [hx, hne, hnend]
  have stepKeep : ∀ (f15 x : ℤ) (acc : List PEvent), idx x = 15 → f15 ≠ -1 →
      ¬(x = minX + 7 - 2) →
      fillContourStep g idx threshold (minX + 7) squareY (f15, acc) x =
        (f15, acc ++ [PEvent.onFilledSquareChange x squareY]) := by
    intro f15 x acc hx hf hnend
    unfold fillContourStep
    norm_num [hx, hf, hnend]
  have stepBreak : ∀ (f15 x : ℤ) (acc : List PEvent), idx x = 3 → f15 ≠ -1 →
      fillContourStep g idx threshold (minX + 7) squareY (f15, acc) x =
        (-1, (acc ++ [PEvent.onFilledSquareChange x squareY,
          PEvent.drawRectangle (f15 : ℚ) (squareY : ℚ) (x : ℚ) ((squareY + 1 : ℤ) : ℚ)])
          ++ polygonEvents g threshold x squareY 3) := by
    intro f15 x acc hx hf
    unfold fillContourStep
    norm_num [hx, hf]
  have stepEnd : ∀ (f15 x : ℤ) (acc : List PEvent), idx x = 15 → f15 ≠ -1 →
      x = minX + 7 - 2 →
      fillContourStep g idx threshold (minX + 7) squareY (f15, acc) x =
        (-1, acc ++ [PEvent.onFilledSquareChange x squareY,
          PEvent.drawRectangle (f15 : ℚ) (squareY : ℚ) ((x + 1 : ℤ) : ℚ)
            ((squareY + 1 : ℤ) : ℚ)]) := by
    intro f15 x acc hx hf hend
    subst hend
    unfold fillContourStep
    norm_num [hx, hf]
  unfold fillContourRow
  rw [hrange]
  simp only [List.foldl_cons, List.foldl_nil]
  rw [stepOpen minX _ h1 (by omega) (by omega),
    stepKeep minX (minX + 1) _ h2 (by omega) (by omega),
    stepKeep minX (minX + 2) _ h3 (by omega) (by omega),
    stepBreak minX (minX + 3) _ h4 (by omega),
    stepOpen (minX + 4) _ h5 (by omega) (by omega),
    stepEnd (minX + 4) (minX + 5) _ h6 (by omega) (by omega)]
  simp [show (minX + 5 + 1 : ℤ) = minX + 6 from by ring]

/-- C5, witness: the concrete classification `[15,15,15,3,15,15]` starting at
x = 0 on row 0, against an all-zero 2-row strip with threshold 1. -/
theorem fillContourRow_run_length_witness :
    fillContourRow ⟨[[0, 0, 0, 0, 0, 0, 0], [0, 0, 0, 0, 0, 0, 0]]⟩
      (fun x => if x = 3 then 3 else 15) 1 0 7 0 =
      [PEvent.onFilledSquareChange 0 0,
       PEvent.onFilledSquareChange 1 0,
       PEvent.onFilledSquareChange 2 0,
       PEvent.onFilledSquareChange 3 0,
       PEvent.drawRectangle 0 0 3 1]
      ++ polygonEvents ⟨[[0, 0, 0, 0, 0, 0, 0], [0, 0, 0, 0, 0, 0, 0]]⟩ 1 3 0 3
      ++ [PEvent.onFilledSquareChange 4 0,
          PEvent.onFilledSquareChange 5 0,
          PEvent.drawRectangle 4 0 6 1] := by
  have h := fillContourRow_run_length ⟨[[0, 0, 0, 0, 0, 0, 0], [0, 0, 0, 0, 0, 0, 0]]⟩ 1
    (fun x => if x = 3 then 3 else 15) 0 0 (by omega)
    (by norm_num) (by norm_num) (by norm_num) (by norm_num) (by norm_num) (by norm_num)
  norm_num at h
  simpa using h

/-- C6, counterexample: on the synthetic single-cell grid with all four
corners above the threshold (case 15, `drawUnder = false`), `fillContour`
does emit geometry: the run-length pass draws the covering rectangle, so
"emits no geometry for case 15" fails. -/
theorem fillContour_case15_emits_rectangle :
    squareIndexDrawn ⟨[[1, 1], [1, 1]]⟩ 0 false 0 0 = 15 ∧
    PEvent.drawRectangle 0 0 1 1 ∈ fillContour ⟨[[1, 1], [1, 1]]⟩ 0 0 2 2 0 false := by
  with_unfolding_all decide

/-- C6, amended: on a synthetic single-cell scan, for every grid and
threshold (hence for each of the 16 corner-sign combinations and either
`drawUnder` polarity): a cell whose drawn case index is 0 produces no
geometry at all (only the per-cell notification), and a cell whose drawn
case index is 15 produces no polygon path but exactly one run-length
rectangle covering the cell. -/
theorem fillContour_single_cell_cases (g : ScalarField) (threshold : ℚ) (drawUnder : Bool) :
    (squareIndexDrawn g threshold drawUnder 0 0 = 0 →
      fillContour g 0 0 2 2 threshold drawUnder = [PEvent.onFilledSquareChange 0 0]) ∧
    (squareIndexDrawn g threshold drawUnder 0 0 = 15 →
      fillContour g 0 0 2 2 threshold drawUnder =
        [PEvent.onFilledSquareChange 0 0, PEvent.drawRectangle 0 0 1 1]) := by
  constructor <;> intro h <;>
    norm_num [fillContour, fillContourRow, fillContourStep, intRange,
      List.range_succ, h]

/-- C6, witness: both branches instantiated — the all-below grid draws
nothing, the all-above grid draws exactly the covering rectangle. -/
theorem fillContour_single_cell_cases_witness :
    fillContour ⟨[[0, 0], [0, 0]]⟩ 0 0 2 2 1 false = [PEvent.onFilledSquareChange 0 0] ∧
    fillContour ⟨[[1, 1], [1, 1]]⟩ 0 0 2 2 0 false =
      [PEvent.onFilledSquareChange 0 0, PEvent.drawRectangle 0 0 1 1] :=
  ⟨(fillContour_single_cell_cases ⟨[[0, 0], [0, 0]]⟩ 1 false).1
      (by with_unfolding_all decide),
    (fillContour_single_cell_cases ⟨[[1, 1], [1, 1]]⟩ 0 false).2
      (by with_unfolding_all decide)⟩

/-- C3, counterexample: a popped wavefront node whose recorded value equals
the grid's current value at its cell (so current ≤ recorded) is not
discarded — the claimed "discarded exactly when current ≤ recorded" fails:
the node expands and admits both of its in-row neighbours. -/
theorem shadeStep_expands_at_equal_value :
    (⟨[[0, 1, 0]]⟩ : ScalarField).get 1 0 ≤ (1 : ℚ) ∧
    shadeStep (fillGetContourValue 1 4) ⟨[[0, 1, 0]]⟩ ⟨1, 0, 1, 0, 1⟩ [] ≠
      (⟨[[0, 1, 0]]⟩, []) := by
  with_unfolding_all decide

/-- C3, amended: in the shading loop a popped node is discarded without any
expansion exactly when the grid's current value at its cell is strictly
greater than the node's recorded value; when the current value is ≤ the
recorded one the node expands to its 4 neighbours with its own seed
coordinates (`shadeVisit`). -/
theorem shadeLoop_pop_discard_or_expand (getContourValue : ℚ → ℚ → Option ℚ)
    (fuel : ℕ) (g : ScalarField) (node : ContourNode) (rest next : List ContourNode) :
    (node.value < g.get node.x node.y →
      shadeLoop getContourValue (fuel + 1) (node :: rest) next g =
        shadeLoop getContourValue fuel rest next g) ∧
    (g.get node.x node.y ≤ node.value →
      shadeLoop getContourValue (fuel + 1) (node :: rest) next g =
        shadeLoop getContourValue fuel rest (shadeVisit getContourValue g next node).2
          (shadeVisit getContourValue g next node).1) := by
  constructor <;> intro h
  · simp only [shadeLoop, shadeStep, if_pos h]
  · simp only [shadeLoop, shadeStep, if_neg (not_lt.2 h)]

/-- C3, witness: a stale node (current value 2 exceeds its recorded value 1)
is dropped with no change to grid or layers. -/
theorem shadeLoop_pop_discard_witness :
    shadeLoop (fillGetContourValue 1 4) 1 [⟨1, 0, 1, 0, 1⟩] [] ⟨[[0, 2, 0]]⟩ =
      shadeLoop (fillGetContourValue 1 4) 0 [] [] ⟨[[0, 2, 0]]⟩ :=
  (shadeLoop_pop_discard_or_expand (fillGetContourValue 1 4) 0 ⟨[[0, 2, 0]]⟩
    ⟨1, 0, 1, 0, 1⟩ [] []).1 (by with_unfolding_all decide)

/-- `unfillFrom(0, 0, valueMin = -1, 0, 1)` on a 1×2 zero grid never
terminates: the filling value 0 still satisfies the flood predicate
`value > -1`, so the two cells push each other onto the flood stack forever —
for every fuel the flood loop is still running. -/
theorem unfillFromF_negative_valueMin_none_of_fuel :
    ∀ fuel : ℕ, ScalarField.unfillFromF ⟨[[0, 0]]⟩ fuel 0 0 (-1) 0 1 = none := by
  have stepA : floodVisit (fun fieldValue => decide ((-1 : ℚ) < fieldValue))
      (unfillGetContourValue (0 * 0) ((1 * 0) * (1 * 0))) 0 0
      ⟨(⟨[[0, 0]]⟩ : ScalarField).set 0 0 0, [], []⟩ = ⟨⟨[[0, 0]]⟩, [⟨1, 0⟩], []⟩ := by
    with_unfolding_all rfl
  have stepB : floodVisit (fun fieldValue => decide ((-1 : ℚ) < fieldValue))
      (unfillGetContourValue (0 * 0) ((1 * 0) * (1 * 0))) 1 0
      ⟨(⟨[[0, 0]]⟩ : ScalarField).set 1 0 0, [], []⟩ = ⟨⟨[[0, 0]]⟩, [⟨0, 0⟩], []⟩ := by
    with_unfolding_all rfl
  have key : ∀ n : ℕ,
      floodLoop (fun fieldValue => decide ((-1 : ℚ) < fieldValue)) 0
        (unfillGetContourValue (0 * 0) ((1 * 0) * (1 * 0))) n
        ⟨⟨[[0, 0]]⟩, [⟨0, 0⟩], []⟩ = none ∧
      floodLoop (fun fieldValue => decide ((-1 : ℚ) < fieldValue)) 0
        (unfillGetContourValue (0 * 0) ((1 * 0) * (1 * 0))) n
        ⟨⟨[[0, 0]]⟩, [⟨1, 0⟩], []⟩ = none := by
    intro n
    induction n with
    | zero => exact ⟨rfl, rfl⟩
    | succ n ih =>
      constructor
      · simp only [floodLoop]
        rw [stepA]
        exact ih.2
      · simp only [floodLoop]
        rw [stepB]
        exact ih.1
  intro fuel
  simp only [ScalarField.unfillFromF]
  rw [show floodSeed (fun fieldValue => decide ((-1 : ℚ) < fieldValue)) ⟨[[0, 0]]⟩ 0 0 =
    [⟨0, 0⟩] from by with_unfolding_all rfl]
  rw [(key fuel).1]

/-! Structure of one contour-seed admission, shared by the flood and shading
phases. -/

/-- C2, counterexample: `unfillFrom(0, 0, valueMin = -1, 0, 1)` on the 1×2
zero grid is still running after 1000 flood iterations — the filling value 0
satisfies the flood predicate `value > -1`, so the two cells push each other
onto the flood stack forever and no fuel suffices. -/
theorem unfillFromF_negative_valueMin_diverges :
    ScalarField.unfillFromF ⟨[[0, 0]]⟩ 1000 0 0 (-1) 0 1 = none :=
  unfillFromF_negative_valueMin_none_of_fuel 1000

theorem checkAnAdd_cases (getContourValue : ℚ → ℚ → Option ℚ) (g : ScalarField)
    (next : List ContourNode) (nodeX nodeY : ℤ) (originX originY : ℚ) :
    checkAnAddContourNode getContourValue g next nodeX nodeY originX originY = (g, next) ∨
    ∃ v, g.isInside (nodeX : ℚ) (nodeY : ℚ) = true ∧
      getContourValue (g.get nodeX nodeY)
        (max minDistanceSq (((nodeX : ℚ) - originX) * ((nodeX : ℚ) - originX)
          + ((nodeY : ℚ) - originY) * ((nodeY : ℚ) - originY))) = some v ∧
      checkAnAddContourNode getContourValue g next nodeX nodeY originX originY =
        (g.set nodeX nodeY v, ⟨nodeX, nodeY, originX, originY, v⟩ :: next) := by
  unfold checkAnAddContourNode
  by_cases hin : g.isInside (nodeX : ℚ) (nodeY : ℚ) = true
  · rw [if_pos hin]
    cases hv : getContourValue (g.get nodeX nodeY)
      (max minDistanceSq (((nodeX : ℚ) - originX) * ((nodeX : ℚ) - originX)
        + ((nodeY : ℚ) - originY) * ((nodeY : ℚ) - originY))) with
    | none => left; simp [hv]
    | some v => right; exact ⟨v, hin, rfl, by simp [hv]⟩
  · left
    rw [if_neg hin]

theorem cellFinset_set (g : ScalarField) (x y : ℤ) (v : ℚ) :
    cellFinset (g.set x y v) = cellFinset g := by
  unfold cellFinset
  rw [dimX_set, dimY_set]

theorem contourValues_set (φ : ℚ → ℚ) (g : ScalarField) (O : Finset (ℚ × ℚ))
    (x y : ℤ) (v : ℚ) : contourValues φ (g.set x y v) O = contourValues φ g O := by
  unfold contourValues
  rw [cellFinset_set]

theorem floodableCount_set_same (cf : ℚ → Bool) (g : ScalarField) (hR : g.Rectangular)
    {x y : ℤ} (hin : g.isInside (x : ℚ) (y : ℚ) = true) (v : ℚ)
    (hsame : cf v = cf (g.get x y)) :
    floodableCount cf (g.set x y v) = floodableCount cf g := by
  unfold floodableCount
  rw [cellFinset_set]
  congr 1
  apply Finset.filter_congr
  intro c hcm
  have hb := (isInside_intCast g c.1 c.2).1 ((mem_cellFinset g c).1 hcm)
  have hxyb := (isInside_intCast g x y).1 hin
  by_cases hcc : c = (x, y)
  · subst hcc
    simp only [get_set_eq g hR hin, hsame]
  · rw [get_set_ne g hxyb.1 hxyb.2.2.1 hb.1 hb.2.2.1
      (by simpa [Prod.ext_iff] using hcc) v]

/-! Shape of one neighbour visit and of the four visits of a flood pop. -/

theorem floodVisitOne_spec (cf : ℚ → Bool) (gcv : ℚ → ℚ → Option ℚ)
    (Hkeep : ∀ a d v, gcv a d = some v → cf a = false → cf v = false)
    (x y : ℤ) (d : ℤ × ℤ) (st : FloodState) (hR : st.g.Rectangular) :
    (floodVisitOne cf gcv x y st d).g.Rectangular ∧
    (floodVisitOne cf gcv x y st d).g.dimX = st.g.dimX ∧
    (floodVisitOne cf gcv x y st d).g.dimY = st.g.dimY ∧
    (∀ a b : ℤ, st.g.isInside (a : ℚ) (b : ℚ) = true →
      cf ((floodVisitOne cf gcv x y st d).g.get a b) = cf (st.g.get a b)) ∧
    (∃ new : List Node, (floodVisitOne cf gcv x y st d).stack = new ++ st.stack ∧
      ∀ n ∈ new, st.g.isInside (n.x : ℚ) (n.y : ℚ) = true ∧
        cf ((floodVisitOne cf gcv x y st d).g.get n.x n.y) = true) := by
  unfold floodVisitOne
  by_cases hin : st.g.isInside ((x + d.1 : ℤ) : ℚ) ((y + d.2 : ℤ) : ℚ) = true
  · rw [if_pos hin]
    by_cases hcf : cf (st.g.get (x + d.1) (y + d.2)) = true
    · rw [if_pos hcf]
      exact ⟨hR, rfl, rfl, fun a b _ => rfl,
        ⟨[⟨x + d.1, y + d.2⟩], rfl, fun n hn => by
          rcases List.mem_singleton.1 hn with rfl
          exact ⟨hin, hcf⟩⟩⟩
    · rw [if_neg hcf]
      rcases checkAnAdd_cases gcv st.g st.next (x + d.1) (y + d.2) (x : ℚ) (y : ℚ) with
        h | ⟨v, hvin, hvsome, h⟩
      · rw [h]
        exact ⟨hR, rfl, rfl, fun a b _ => rfl, ⟨[], rfl, by simp⟩⟩
      · rw [h]
        have hfb := (isInside_intCast st.g (x + d.1) (y + d.2)).1 hin
        have hcfv : cf v = false :=
          Hkeep _ _ _ hvsome (Bool.not_eq_true _ ▸ hcf)
        refine ⟨rect_set _ _ _ _ hR, dimX_set _ _ _ _, dimY_set _ _ _ _, ?_, ⟨[], rfl, by simp⟩⟩
        intro a b hab
        have hb := (isInside_intCast st.g a b).1 hab
        by_cases hcc : a = x + d.1 ∧ b = y + d.2
        · obtain ⟨rfl, rfl⟩ := hcc
          rw [get_set_eq st.g hR hin, hcfv,
            eq_comm, Bool.eq_false_iff]
          intro hc
          exact absurd hc hcf
        · rw [get_set_ne st.g hfb.1 hfb.2.2.1 hb.1 hb.2.2.1
            (fun hc => hcc ⟨congrArg Prod.fst hc, congrArg Prod.snd hc⟩) v]
  · rw [if_neg hin]
    exact ⟨hR, rfl, rfl, fun a b _ => rfl, ⟨[], rfl, by simp⟩⟩

theorem floodVisitList_spec (cf : ℚ → Bool) (gcv : ℚ → ℚ → Option ℚ)
    (Hkeep : ∀ a d v, gcv a d = some v → cf a = false → cf v = false)
    (x y : ℤ) :
    ∀ (ds : List (ℤ × ℤ)) (st : FloodState), st.g.Rectangular →
    (ds.foldl (floodVisitOne cf gcv x y) st).g.Rectangular ∧
    (ds.foldl (floodVisitOne cf gcv x y) st).g.dimX = st.g.dimX ∧
    (ds.foldl (floodVisitOne cf gcv x y) st).g.dimY = st.g.dimY ∧
    (∀ a b : ℤ, st.g.isInside (a : ℚ) (b : ℚ) = true →
      cf ((ds.foldl (floodVisitOne cf gcv x y) st).g.get a b) = cf (st.g.get a b)) ∧
    (∃ new : List Node, (ds.foldl (floodVisitOne cf gcv x y) st).stack = new ++ st.stack ∧
      ∀ n ∈ new, st.g.isInside (n.x : ℚ) (n.y : ℚ) = true ∧
        cf ((ds.foldl (floodVisitOne cf gcv x y) st).g.get n.x n.y) = true) := by
  intro ds
  induction ds with
  | nil =>
    intro st hR
    exact ⟨hR, rfl, rfl, fun a b _ => rfl, ⟨[], rfl, by simp⟩⟩
  | cons d ds ih =>
    intro st hR
    obtain ⟨hR1, hX1, hY1, hcf1, new1, hs1, hnew1⟩ :=
      floodVisitOne_spec cf gcv Hkeep x y d st hR
    obtain ⟨hR2, hX2, hY2, hcf2, new2, hs2, hnew2⟩ :=
      ih (floodVisitOne cf gcv x y st d) hR1
    have hIeq : ∀ a b : ℚ,
        (floodVisitOne cf gcv x y st d).g.isInside a b = st.g.isInside a b :=
      isInside_congr _ _ hX1 hY1
    rw [List.foldl_cons]
    refine ⟨hR2, hX2.trans hX1, hY2.trans hY1, ?_, ⟨new2 ++ new1, ?_, ?_⟩⟩
    · intro a b hab
      rw [hcf2 a b (by rw [hIeq]; exact hab), hcf1 a b hab]
    · rw [hs2, hs1, List.append_assoc]
    · intro n hn
      rcases List.mem_append.1 hn with h | h
      · obtain ⟨hni, hncf⟩ := hnew2 n h
        exact ⟨by rw [← hIeq]; exact hni, hncf⟩
      · obtain ⟨hni, hncf⟩ := hnew1 n h
        refine ⟨hni, ?_⟩
        rw [hcf2 n.x n.y (by rw [hIeq]; exact hni)]
        exact hncf

theorem cf_get_set_pointwise (cf : ℚ → Bool) (g : ScalarField) (hR : g.Rectangular)
    {x y : ℤ} (hin : g.isInside (x : ℚ) (y : ℚ) = true) (v : ℚ)
    (hsame : cf v = cf (g.get x y)) :
    ∀ a b : ℤ, g.isInside (a : ℚ) (b : ℚ) = true →
      cf ((g.set x y v).get a b) = cf (g.get a b) := by
  intro a b hab
  have hb := (isInside_intCast g a b).1 hab
  have hxyb := (isInside_intCast g x y).1 hin
  by_cases hcc : a = x ∧ b = y
  · obtain ⟨rfl, rfl⟩ := hcc
    rw [get_set_eq g hR hin, hsame]
  · rw [get_set_ne g hxyb.1 hxyb.2.2.1 hb.1 hb.2.2.1
      (fun hc => hcc ⟨congrArg Prod.fst hc, congrArg Prod.snd hc⟩) v]

theorem floodableCount_congr (cf : ℚ → Bool) (g' g : ScalarField)
    (hX : g'.dimX = g.dimX) (hY : g'.dimY = g.dimY)
    (h : ∀ a b : ℤ, g.isInside (a : ℚ) (b : ℚ) = true →
      cf (g'.get a b) = cf (g.get a b)) :
    floodableCount cf g' = floodableCount cf g := by
  unfold floodableCount
  rw [show cellFinset g' = cellFinset g from by unfold cellFinset; rw [hX, hY]]
  congr 1
  apply Finset.filter_congr
  intro c hcm
  rw [h c.1 c.2 ((mem_cellFinset g c).1 hcm)]

theorem floodableCount_set_erase (cf : ℚ → Bool) (g : ScalarField) (hR : g.Rectangular)
    {x y : ℤ} (hin : g.isInside (x : ℚ) (y : ℚ) = true) (v : ℚ)
    (hvf : cf v = false) (hold : cf (g.get x y) = true) :
    floodableCount cf (g.set x y v) + 1 = floodableCount cf g := by
  unfold floodableCount
  rw [cellFinset_set]
  have hxyb := (isInside_intCast g x y).1 hin
  have hmem : (x, y) ∈ (cellFinset g).filter (fun c => cf (g.get c.1 c.2) = true) := by
    rw [Finset.mem_filter, mem_cellFinset]
    exact ⟨hin, hold⟩
  have hfe : (cellFinset g).filter (fun c => cf ((g.set x y v).get c.1 c.2) = true) =
      ((cellFinset g).filter (fun c => cf (g.get c.1 c.2) = true)).erase (x, y) := by
    ext c
    rw [Finset.mem_erase, Finset.mem_filter, Finset.mem_filter]
    constructor
    · rintro ⟨hcm, hcf⟩
      have hb := (isInside_intCast g c.1 c.2).1 ((mem_cellFinset g c).1 hcm)
      by_cases hcc : c = (x, y)
      · subst hcc
        rw [get_set_eq g hR hin] at hcf
        rw [hcf] at hvf
        exact absurd hvf (by simp)
      · rw [get_set_ne g hxyb.1 hxyb.2.2.1 hb.1 hb.2.2.1
          (by simpa [Prod.ext_iff] using hcc) v] at hcf
        exact ⟨hcc, hcm, hcf⟩
    · rintro ⟨hcc, hcm, hcf⟩
      have hb := (isInside_intCast g c.1 c.2).1 ((mem_cellFinset g c).1 hcm)
      refine ⟨hcm, ?_⟩
      rw [get_set_ne g hxyb.1 hxyb.2.2.1 hb.1 hb.2.2.1
        (by simpa [Prod.ext_iff] using hcc) v]
      exact hcf
  rw [hfe, Finset.card_erase_of_mem hmem]
  have hpos : 0 < ((cellFinset g).filter (fun c => cf (g.get c.1 c.2) = true)).card :=
    Finset.card_pos.2 ⟨(x, y), hmem⟩
  omega

theorem staleCount_congr (cf : ℚ → Bool) (g' g : ScalarField) (l : List Node)
    (hl : ∀ n ∈ l, g.isInside (n.x : ℚ) (n.y : ℚ) = true)
    (h : ∀ a b : ℤ, g.isInside (a : ℚ) (b : ℚ) = true →
      cf (g'.get a b) = cf (g.get a b)) :
    staleCount cf g' l = staleCount cf g l := by
  unfold staleCount
  apply List.countP_congr
  intro n hn
  rw [h n.x n.y (hl n hn)]

theorem floodPop_spec (cf : ℚ → Bool) (gcv : ℚ → ℚ → Option ℚ)
    (Hkeep : ∀ a d v, gcv a d = some v → cf a = false → cf v = false)
    (fv : ℚ) (Hfill : cf fv = false)
    (g : ScalarField) (node : Node) (rest : List Node) (next : List ContourNode)
    (hR : g.Rectangular)
    (hnode : g.isInside (node.x : ℚ) (node.y : ℚ) = true)
    (hrest : ∀ n ∈ rest, g.isInside (n.x : ℚ) (n.y : ℚ) = true) :
    (floodVisit cf gcv node.x node.y ⟨g.set node.x node.y fv, rest, next⟩).g.Rectangular ∧
    (floodVisit cf gcv node.x node.y ⟨g.set node.x node.y fv, rest, next⟩).g.dimX = g.dimX ∧
    (floodVisit cf gcv node.x node.y ⟨g.set node.x node.y fv, rest, next⟩).g.dimY = g.dimY ∧
    (∀ n ∈ (floodVisit cf gcv node.x node.y ⟨g.set node.x node.y fv, rest, next⟩).stack,
      g.isInside (n.x : ℚ) (n.y : ℚ) = true) ∧
    (cf (g.get node.x node.y) = true →
      floodableCount cf
          (floodVisit cf gcv node.x node.y ⟨g.set node.x node.y fv, rest, next⟩).g <
        floodableCount cf g) ∧
    (cf (g.get node.x node.y) = false →
      floodableCount cf
          (floodVisit cf gcv node.x node.y ⟨g.set node.x node.y fv, rest, next⟩).g =
        floodableCount cf g ∧
      staleCount cf (floodVisit cf gcv node.x node.y ⟨g.set node.x node.y fv, rest, next⟩).g
          (floodVisit cf gcv node.x node.y ⟨g.set node.x node.y fv, rest, next⟩).stack =
        staleCount cf g rest) := by
  have hR1 : (g.set node.x node.y fv).Rectangular := rect_set _ _ _ _ hR
  obtain ⟨hR2, hX2, hY2, hcf2, new2, hs2, hnew2⟩ :=
    floodVisitList_spec cf gcv Hkeep node.x node.y deltas
      ⟨g.set node.x node.y fv, rest, next⟩ hR1
  have hIeq1 : ∀ a b : ℚ, (g.set node.x node.y fv).isInside a b = g.isInside a b :=
    isInside_congr _ _ (dimX_set _ _ _ _) (dimY_set _ _ _ _)
  rw [show (deltas.foldl (floodVisitOne cf gcv node.x node.y)
      ⟨g.set node.x node.y fv, rest, next⟩ : FloodState) =
    floodVisit cf gcv node.x node.y ⟨g.set node.x node.y fv, rest, next⟩ from rfl]
    at hR2 hX2 hY2 hcf2 hs2 hnew2
  refine ⟨hR2, hX2.trans (dimX_set _ _ _ _), hY2.trans (dimY_set _ _ _ _), ?_, ?_, ?_⟩
  · intro n hn
    rw [hs2] at hn
    rcases List.mem_append.1 hn with h | h
    · exact (hIeq1 _ _) ▸ (hnew2 n h).1
    · exact hrest n h
  · intro hfl
    have h1 : floodableCount cf (g.set node.x node.y fv) + 1 = floodableCount cf g :=
      floodableCount_set_erase cf g hR hnode fv Hfill hfl
    have h2 : floodableCount cf
        (floodVisit cf gcv node.x node.y ⟨g.set node.x node.y fv, rest, next⟩).g =
        floodableCount cf (g.set node.x node.y fv) :=
      floodableCount_congr cf _ _ hX2 hY2 (fun a b hab => hcf2 a b ((hIeq1 _ _) ▸ hab))
    omega
  · intro hfl
    have hsame : cf fv = cf (g.get node.x node.y) := by rw [Hfill, hfl]
    have hpt := cf_get_set_pointwise cf g hR hnode fv hsame
    have h1 : floodableCount cf (g.set node.x node.y fv) = floodableCount cf g :=
      floodableCount_congr cf _ _ (dimX_set _ _ _ _) (dimY_set _ _ _ _) hpt
    have h2 : floodableCount cf
        (floodVisit cf gcv node.x node.y ⟨g.set node.x node.y fv, rest, next⟩).g =
        floodableCount cf (g.set node.x node.y fv) :=
      floodableCount_congr cf _ _ hX2 hY2 (fun a b hab => hcf2 a b ((hIeq1 _ _) ▸ hab))
    refine ⟨h2.trans h1, ?_⟩
    rw [hs2]
    unfold staleCount
    rw [List.countP_append]
    have hzero : new2.countP
        (fun n => !cf ((floodVisit cf gcv node.x node.y
          ⟨g.set node.x node.y fv, rest, next⟩).g.get n.x n.y)) = 0 := by
      rw [List.countP_eq_zero]
      intro n hn
      rw [(hnew2 n hn).2]
      simp
    rw [hzero]
    dsimp only
    have hrest1 : staleCount cf
        (floodVisit cf gcv node.x node.y ⟨g.set node.x node.y fv, rest, next⟩).g rest =
        staleCount cf (g.set node.x node.y fv) rest := by
      apply staleCount_congr
      · intro n hn
        rw [hIeq1]
        exact hrest n hn
      · intro a b hab
        exact hcf2 a b hab
    have hrest2 : staleCount cf (g.set node.x node.y fv) rest = staleCount cf g rest :=
      staleCount_congr cf _ _ rest hrest hpt
    unfold staleCount at hrest1 hrest2
    omega

theorem floodLoop_term_aux (cf : ℚ → Bool) (fv : ℚ) (gcv : ℚ → ℚ → Option ℚ)
    (Hfill : cf fv = false)
    (Hkeep : ∀ a d v, gcv a d = some v → cf a = false → cf v = false) :
    ∀ A : ℕ, ∀ B : ℕ, ∀ (g : ScalarField) (stack : List Node) (next : List ContourNode),
      g.Rectangular → (∀ n ∈ stack, g.isInside (n.x : ℚ) (n.y : ℚ) = true) →
      floodableCount cf g = A → staleCount cf g stack = B →
      ∃ n, (floodLoop cf fv gcv n ⟨g, stack, next⟩).isSome = true := by
  intro A
  induction A using Nat.strong_induction_on with
  | _ A ihA =>
    intro B
    induction B using Nat.strong_induction_on with
    | _ B ihB =>
      intro g stack next hR hins hA hB
      match stack with
      | [] => exact ⟨1, rfl⟩
      | node :: rest =>
        have hnode := hins node (List.mem_cons_self node rest)
        have hrest : ∀ n ∈ rest, g.isInside (n.x : ℚ) (n.y : ℚ) = true :=
          fun n hn => hins n (List.mem_cons_of_mem node hn)
        obtain ⟨hR', hX', hY', hins', hprod, hstale⟩ :=
          floodPop_spec cf gcv Hkeep fv Hfill g node rest next hR hnode hrest
        have hIeq : ∀ a b : ℚ,
            (floodVisit cf gcv node.x node.y
              ⟨g.set node.x node.y fv, rest, next⟩).g.isInside a b = g.isInside a b :=
          isInside_congr _ _ hX' hY'
        by_cases hfl : cf (g.get node.x node.y) = true
        · obtain ⟨n, hn⟩ := ihA
            (floodableCount cf (floodVisit cf gcv node.x node.y
              ⟨g.set node.x node.y fv, rest, next⟩).g)
            (by rw [← hA]; exact hprod hfl) _
            (floodVisit cf gcv node.x node.y ⟨g.set node.x node.y fv, rest, next⟩).g
            (floodVisit cf gcv node.x node.y ⟨g.set node.x node.y fv, rest, next⟩).stack
            (floodVisit cf gcv node.x node.y ⟨g.set node.x node.y fv, rest, next⟩).next
            hR' (fun n hn => by rw [hIeq]; exact hins' n hn) rfl rfl
          refine ⟨n + 1, ?_⟩
          simp only [floodLoop]
          convert hn
        · have hfl' : cf (g.get node.x node.y) = false := Bool.not_eq_true _ ▸ hfl
          obtain ⟨hcnt, hstl⟩ := hstale hfl'
          have hBpos : staleCount cf g (node :: rest) = staleCount cf g rest + 1 := by
            unfold staleCount
            rw [List.countP_cons]
            simp [hfl']
          obtain ⟨n, hn⟩ := ihB (staleCount cf g rest) (by omega)
            (floodVisit cf gcv node.x node.y ⟨g.set node.x node.y fv, rest, next⟩).g
            (floodVisit cf gcv node.x node.y ⟨g.set node.x node.y fv, rest, next⟩).stack
            (floodVisit cf gcv node.x node.y ⟨g.set node.x node.y fv, rest, next⟩).next
            hR' (fun n hn => by rw [hIeq]; exact hins' n hn)
            (by rw [hcnt, hA]) (by rw [hstl])
          refine ⟨n + 1, ?_⟩
          simp only [floodLoop]
          convert hn

theorem floodLoop_mono (cf : ℚ → Bool) (fv : ℚ) (gcv : ℚ → ℚ → Option ℚ) :
    ∀ (n m : ℕ) (st : FloodState) (r : ScalarField × List ContourNode),
      floodLoop cf fv gcv n st = some r → n ≤ m → floodLoop cf fv gcv m st = some r := by
  intro n
  induction n with
  | zero => intro m st r h; exact absurd h (by simp [floodLoop])
  | succ n ih =>
    intro m st r h hle
    match m with
    | 0 => omega
    | m + 1 =>
      match st with
      | ⟨g, [], next⟩ => exact h
      | ⟨g, node :: rest, next⟩ =>
        rw [show floodLoop cf fv gcv (n + 1) ⟨g, node :: rest, next⟩ =
          floodLoop cf fv gcv n (floodVisit cf gcv node.x node.y
            ⟨g.set node.x node.y fv, rest, next⟩) from rfl] at h
        rw [show floodLoop cf fv gcv (m + 1) ⟨g, node :: rest, next⟩ =
          floodLoop cf fv gcv m (floodVisit cf gcv node.x node.y
            ⟨g.set node.x node.y fv, rest, next⟩) from rfl]
        exact ih m _ r h (by omega)

theorem shadeLoop_mono (gcv : ℚ → ℚ → Option ℚ) :
    ∀ (n m : ℕ) (cur next : List ContourNode) (g : ScalarField) (r : ScalarField),
      shadeLoop gcv n cur next g = some r → n ≤ m → shadeLoop gcv m cur next g = some r := by
  intro n
  induction n with
  | zero => intro m cur next g r h; exact absurd h (by simp [shadeLoop])
  | succ n ih =>
    intro m cur next g r h hle
    match m with
    | 0 => omega
    | m + 1 =>
      match cur, next with
      | [], [] => exact h
      | [], node :: rest =>
        exact ih m _ _ _ r h (by omega)
      | node :: rest, next =>
        rw [show shadeLoop gcv (n + 1) (node :: rest) next g =
          shadeLoop gcv n rest (shadeStep gcv g node next).2 (shadeStep gcv g node next).1
          from rfl] at h
        rw [show shadeLoop gcv (m + 1) (node :: rest) next g =
          shadeLoop gcv m rest (shadeStep gcv g node next).2 (shadeStep gcv g node next).1
          from rfl]
        exact ih m _ _ _ r h (by omega)

theorem floodLoop_preserves (cf : ℚ → Bool) (fv : ℚ) (gcv : ℚ → ℚ → Option ℚ)
    (Hkeep : ∀ a d v, gcv a d = some v → cf a = false → cf v = false) :
    ∀ (n : ℕ) (st : FloodState), st.g.Rectangular →
      (∀ nd ∈ st.stack, st.g.isInside (nd.x : ℚ) (nd.y : ℚ) = true) →
      ∀ g1 next1, floodLoop cf fv gcv n st = some (g1, next1) →
      g1.Rectangular ∧ g1.dimX = st.g.dimX ∧ g1.dimY = st.g.dimY := by
  intro n
  induction n with
  | zero => intro st _ _ g1 next1 h; exact absurd h (by simp [floodLoop])
  | succ n ih =>
    intro st hR hins g1 next1 h
    match st with
    | ⟨g, [], next⟩ =>
      obtain rfl : g = g1 := by
        rw [show floodLoop cf fv gcv (n + 1) ⟨g, [], next⟩ = some (g, next) from rfl] at h
        exact congrArg Prod.fst (Option.some_injective _ h)
      exact ⟨hR, rfl, rfl⟩
    | ⟨g, node :: rest, next⟩ =>
      have hnode := hins node (List.mem_cons_self node rest)
      have hrest : ∀ nd ∈ rest, g.isInside (nd.x : ℚ) (nd.y : ℚ) = true :=
        fun nd hn => hins nd (List.mem_cons_of_mem node hn)
      have hR1 : (g.set node.x node.y fv).Rectangular := rect_set _ _ _ _ hR
      obtain ⟨hR2, hX2, hY2, hcf2, new2, hs2, hnew2⟩ :=
        floodVisitList_spec cf gcv Hkeep node.x node.y deltas
          ⟨g.set node.x node.y fv, rest, next⟩ hR1
      rw [show (deltas.foldl (floodVisitOne cf gcv node.x node.y)
          ⟨g.set node.x node.y fv, rest, next⟩ : FloodState) =
        floodVisit cf gcv node.x node.y ⟨g.set node.x node.y fv, rest, next⟩ from rfl]
        at hR2 hX2 hY2 hs2 hnew2
      dsimp only at hX2 hY2
      have hIeq1 : ∀ a b : ℚ, (g.set node.x node.y fv).isInside a b = g.isInside a b :=
        isInside_congr _ _ (dimX_set _ _ _ _) (dimY_set _ _ _ _)
      have hIeq2 : ∀ a b : ℚ,
          (floodVisit cf gcv node.x node.y
            ⟨g.set node.x node.y fv, rest, next⟩).g.isInside a b = g.isInside a b :=
        fun a b => ((isInside_congr _ _ hX2 hY2 a b).trans (hIeq1 a b))
      have hins2 : ∀ nd ∈ (floodVisit cf gcv node.x node.y
          ⟨g.set node.x node.y fv, rest, next⟩).stack,
          (floodVisit cf gcv node.x node.y
            ⟨g.set node.x node.y fv, rest, next⟩).g.isInside (nd.x : ℚ) (nd.y : ℚ) = true := by
        intro nd hnd
        rw [hIeq2]
        rw [hs2] at hnd
        rcases List.mem_append.1 hnd with hm | hm
        · exact (hIeq1 _ _) ▸ (hnew2 nd hm).1
        · exact hrest nd hm
      rw [show floodLoop cf fv gcv (n + 1) ⟨g, node :: rest, next⟩ =
        floodLoop cf fv gcv n (floodVisit cf gcv node.x node.y
          ⟨g.set node.x node.y fv, rest, next⟩) from rfl] at h
      obtain ⟨hRf, hXf, hYf⟩ := ih _ hR2 hins2 g1 next1 h
      exact ⟨hRf, by rw [hXf, hX2]; exact dimX_set _ _ _ _,
        by rw [hYf, hY2]; exact dimY_set _ _ _ _⟩

theorem shadePot_write (rel : ℚ → ℚ → Prop) [DecidableRel rel]
    (Htrans : ∀ a b c, rel a b → rel b c → rel a c) (Hirr : ∀ a, ¬rel a a)
    (V : Finset ℚ) (g : ScalarField) (hR : g.Rectangular) {x y : ℤ}
    (hin : g.isInside (x : ℚ) (y : ℚ) = true) (v : ℚ)
    (hv : v ∈ V) (hrel : rel (g.get x y) v) :
    shadePotential rel V (g.set x y v) + 1 ≤ shadePotential rel V g := by
  unfold shadePotential
  rw [cellFinset_set]
  have hc : (x, y) ∈ cellFinset g := (mem_cellFinset g (x, y)).2 hin
  rw [← Finset.add_sum_erase _ _ hc, ← Finset.add_sum_erase _
    (fun c => (V.filter (rel (g.get c.1 c.2))).card) hc]
  have hxyb := (isInside_intCast g x y).1 hin
  have hsum : (Finset.sum ((cellFinset g).erase (x, y))
      (fun c => (V.filter (rel ((g.set x y v).get c.1 c.2))).card)) =
      (Finset.sum ((cellFinset g).erase (x, y))
        (fun c => (V.filter (rel (g.get c.1 c.2))).card)) := by
    apply Finset.sum_congr rfl
    intro c hcm
    obtain ⟨hne, hcm'⟩ := Finset.mem_erase.1 hcm
    have hb := (isInside_intCast g c.1 c.2).1 ((mem_cellFinset g c).1 hcm')
    rw [get_set_ne g hxyb.1 hxyb.2.2.1 hb.1 hb.2.2.1
      (by simpa [Prod.ext_iff] using hne) v]
  rw [hsum]
  dsimp only
  have hcard : (V.filter (rel ((g.set x y v).get x y))).card + 1 ≤
      (V.filter (rel (g.get x y))).card := by
    rw [get_set_eq g hR hin]
    have hvmem : v ∈ V.filter (rel (g.get x y)) := Finset.mem_filter.2 ⟨hv, hrel⟩
    have hsub : V.filter (rel v) ⊆ (V.filter (rel (g.get x y))).erase v := by
      intro u hu
      obtain ⟨huV, huv⟩ := Finset.mem_filter.1 hu
      refine Finset.mem_erase.2 ⟨?_, Finset.mem_filter.2 ⟨huV, Htrans _ _ _ hrel huv⟩⟩
      intro hc
      exact Hirr v (hc ▸ huv)
    have h1 := Finset.card_le_card hsub
    rw [Finset.card_erase_of_mem hvmem] at h1
    have h2 : 0 < (V.filter (rel (g.get x y))).card := Finset.card_pos.2 ⟨v, hvmem⟩
    omega
  omega

theorem cellFinset_congr (g' g : ScalarField) (hX : g'.dimX = g.dimX)
    (hY : g'.dimY = g.dimY) : cellFinset g' = cellFinset g := by
  unfold cellFinset
  rw [hX, hY]

theorem shadeVisitList_spec (gcv : ℚ → ℚ → Option ℚ) (φ : ℚ → ℚ)
    (rel : ℚ → ℚ → Prop) [DecidableRel rel]
    (Htrans : ∀ a b c, rel a b → rel b c → rel a c) (Hirr : ∀ a, ¬rel a a)
    (Hφ : ∀ a d v, gcv a d = some v → v = φ d)
    (Hrel : ∀ a d v, gcv a d = some v → rel a v)
    (O : Finset (ℚ × ℚ)) (V : Finset ℚ)
    (node : ContourNode) (hO : (node.originX, node.originY) ∈ O) :
    ∀ (ds : List (ℤ × ℤ)) (g : ScalarField) (next : List ContourNode),
    g.Rectangular →
    (∀ c : ℤ × ℤ, c ∈ cellFinset g → ∀ o ∈ O,
      φ (max minDistanceSq (((c.1 : ℚ) - o.1) * ((c.1 : ℚ) - o.1)
        + ((c.2 : ℚ) - o.2) * ((c.2 : ℚ) - o.2))) ∈ V) →
    (∀ nd ∈ next, (nd.originX, nd.originY) ∈ O) →
    (ds.foldl (fun p d => checkAnAddContourNode gcv p.1 p.2 (node.x + d.1) (node.y + d.2)
      node.originX node.originY) (g, next)).1.Rectangular ∧
    (ds.foldl (fun p d => checkAnAddContourNode gcv p.1 p.2 (node.x + d.1) (node.y + d.2)
      node.originX node.originY) (g, next)).1.dimX = g.dimX ∧
    (ds.foldl (fun p d => checkAnAddContourNode gcv p.1 p.2 (node.x + d.1) (node.y + d.2)
      node.originX node.originY) (g, next)).1.dimY = g.dimY ∧
    (∀ nd ∈ (ds.foldl (fun p d => checkAnAddContourNode gcv p.1 p.2 (node.x + d.1)
        (node.y + d.2) node.originX node.originY) (g, next)).2,
      (nd.originX, nd.originY) ∈ O) ∧
    shadePotential rel V (ds.foldl (fun p d => checkAnAddContourNode gcv p.1 p.2 (node.x + d.1)
        (node.y + d.2) node.originX node.originY) (g, next)).1 +
      (ds.foldl (fun p d => checkAnAddContourNode gcv p.1 p.2 (node.x + d.1) (node.y + d.2)
        node.originX node.originY) (g, next)).2.length ≤
      shadePotential rel V g + next.length := by
  intro ds
  induction ds with
  | nil =>
    intro g next hR hV hnext
    exact ⟨hR, rfl, rfl, hnext, le_refl _⟩
  | cons d ds ih =>
    intro g next hR hV hnext
    simp only [List.foldl_cons]
    rcases checkAnAdd_cases gcv g next (node.x + d.1) (node.y + d.2)
      node.originX node.originY with h | ⟨v, hvin, hvsome, h⟩
    · rw [h]
      exact ih g next hR hV hnext
    · rw [h]
      have hcell : ((node.x + d.1, node.y + d.2) : ℤ × ℤ) ∈ cellFinset g :=
        (mem_cellFinset g _).2 hvin
      have hvV : v ∈ V := by
        have := hV (node.x + d.1, node.y + d.2) hcell
          (node.originX, node.originY) hO
        rw [Hφ _ _ _ hvsome]
        simpa using this
      have hvrel : rel (g.get (node.x + d.1) (node.y + d.2)) v := Hrel _ _ _ hvsome
      have hpot := shadePot_write rel Htrans Hirr V g hR hvin v hvV hvrel
      have hR1 : (g.set (node.x + d.1) (node.y + d.2) v).Rectangular :=
        rect_set _ _ _ _ hR
      have hV1 : ∀ c : ℤ × ℤ, c ∈ cellFinset (g.set (node.x + d.1) (node.y + d.2) v) →
          ∀ o ∈ O, φ (max minDistanceSq (((c.1 : ℚ) - o.1) * ((c.1 : ℚ) - o.1)
            + ((c.2 : ℚ) - o.2) * ((c.2 : ℚ) - o.2))) ∈ V := by
        rw [cellFinset_set]
        exact hV
      have hnext1 : ∀ nd ∈ (⟨node.x + d.1, node.y + d.2, node.originX, node.originY, v⟩ :
          ContourNode) :: next, (nd.originX, nd.originY) ∈ O := by
        intro nd hnd
        rcases List.mem_cons.1 hnd with rfl | hm
        · exact hO
        · exact hnext nd hm
      obtain ⟨ihR, ihX, ihY, ihO, ihpot⟩ := ih (g.set (node.x + d.1) (node.y + d.2) v)
        (⟨node.x + d.1, node.y + d.2, node.originX, node.originY, v⟩ :: next) hR1 hV1 hnext1
      refine ⟨ihR, ihX.trans (dimX_set _ _ _ _), ihY.trans (dimY_set _ _ _ _), ihO, ?_⟩
      calc _ ≤ shadePotential rel V (g.set (node.x + d.1) (node.y + d.2) v) +
          (next.length + 1) := by simpa using ihpot
      _ ≤ shadePotential rel V g + next.length := by omega

theorem shadeLoop_term_aux (gcv : ℚ → ℚ → Option ℚ) (φ : ℚ → ℚ)
    (rel : ℚ → ℚ → Prop) [DecidableRel rel]
    (Htrans : ∀ a b c, rel a b → rel b c → rel a c) (Hirr : ∀ a, ¬rel a a)
    (Hφ : ∀ a d v, gcv a d = some v → v = φ d)
    (Hrel : ∀ a d v, gcv a d = some v → rel a v)
    (O : Finset (ℚ × ℚ)) (V : Finset ℚ) :
    ∀ (M : ℕ) (cur next : List ContourNode) (g : ScalarField),
      g.Rectangular →
      (∀ c : ℤ × ℤ, c ∈ cellFinset g → ∀ o ∈ O,
        φ (max minDistanceSq (((c.1 : ℚ) - o.1) * ((c.1 : ℚ) - o.1)
          + ((c.2 : ℚ) - o.2) * ((c.2 : ℚ) - o.2))) ∈ V) →
      (∀ nd ∈ cur, (nd.originX, nd.originY) ∈ O) →
      (∀ nd ∈ next, (nd.originX, nd.originY) ∈ O) →
      shadeMeasure rel V g cur next < M →
      (shadeLoop gcv M cur next g).isSome = true := by
  intro M
  induction M with
  | zero => intro cur next g _ _ _ _ hM; omega
  | succ M ih =>
    intro cur next g hR hV hcur hnext hM
    match cur, next with
    | [], [] => rfl
    | [], node :: rest =>
      rw [show shadeLoop gcv (M + 1) [] (node :: rest) g =
        shadeLoop gcv M (node :: rest) [] g from rfl]
      apply ih (node :: rest) [] g hR hV hnext (by simp)
      unfold shadeMeasure at hM ⊢
      rw [if_pos rfl] at hM
      rw [if_neg (List.cons_ne_nil node rest)]
      simp only [List.length_nil, List.length_cons] at hM ⊢
      omega
    | node :: rest, next =>
      rw [show shadeLoop gcv (M + 1) (node :: rest) next g =
        shadeLoop gcv M rest (shadeStep gcv g node next).2 (shadeStep gcv g node next).1
        from rfl]
      unfold shadeMeasure at hM
      rw [if_neg (List.cons_ne_nil node rest)] at hM
      simp only [List.length_cons] at hM
      by_cases hlt : node.value < g.get node.x node.y
      · rw [show shadeStep gcv g node next = (g, next) from by
          unfold shadeStep; rw [if_pos hlt]]
        apply ih rest next g hR hV (fun nd hn => hcur nd (List.mem_cons_of_mem node hn)) hnext
        unfold shadeMeasure
        by_cases hre : rest = []
        · subst hre
          rw [if_pos rfl]
          simp only [List.length_nil] at hM ⊢
          omega
        · rw [if_neg hre]
          omega
      · have hstep : shadeStep gcv g node next = shadeVisit gcv g next node := by
          unfold shadeStep
          rw [if_neg hlt]
        rw [hstep, show shadeVisit gcv g next node =
          deltas.foldl (fun p d => checkAnAddContourNode gcv p.1 p.2 (node.x + d.1)
            (node.y + d.2) node.originX node.originY) (g, next) from rfl]
        have hO : (node.originX, node.originY) ∈ O := hcur node (List.mem_cons_self node rest)
        obtain ⟨sR, sX, sY, sO, spot⟩ := shadeVisitList_spec gcv φ rel Htrans Hirr Hφ Hrel
          O V node hO deltas g next hR hV hnext
        apply ih rest _ _ sR
        · rw [cellFinset_congr _ g sX sY]
          exact hV
        · exact fun nd hn => hcur nd (List.mem_cons_of_mem node hn)
        · exact sO
        · unfold shadeMeasure
          by_cases hre : rest = []
          · subst hre
            rw [if_pos rfl]
            simp only [List.length_nil] at hM ⊢
            omega
          · rw [if_neg hre]
            omega

theorem floodSeed_inside (cf : ℚ → Bool) (g : ScalarField) (ox oy : ℚ) :
    ∀ n ∈ floodSeed cf g ox oy, g.isInside (n.x : ℚ) (n.y : ℚ) = true := by
  intro n hn
  unfold floodSeed at hn
  by_cases h : (g.isInside ((round ox : ℤ) : ℚ) ((round oy : ℤ) : ℚ)
      && cf (g.get (round ox) (round oy))) = true
  · rw [if_pos h] at hn
    rcases List.mem_singleton.1 hn with rfl
    exact (Bool.and_eq_true _ _ ▸ h).1
  · rw [if_neg h] at hn
    exact absurd hn (List.not_mem_nil n)

theorem floodThenShade_term (cf : ℚ → Bool) (fvv : ℚ) (gcv : ℚ → ℚ → Option ℚ)
    (φ : ℚ → ℚ) (rel : ℚ → ℚ → Prop) [DecidableRel rel]
    (Hfill : cf fvv = false)
    (Hkeep : ∀ a d v, gcv a d = some v → cf a = false → cf v = false)
    (Htrans : ∀ a b c, rel a b → rel b c → rel a c) (Hirr : ∀ a, ¬rel a a)
    (Hφ : ∀ a d v, gcv a d = some v → v = φ d)
    (Hrel : ∀ a d v, gcv a d = some v → rel a v)
    (g : ScalarField) (hR : g.Rectangular) (start : List Node)
    (hstart : ∀ n ∈ start, g.isInside (n.x : ℚ) (n.y : ℚ) = true) :
    ∃ fuel r, floodLoop cf fvv gcv fuel ⟨g, start, []⟩ = some r ∧
      (shadeLoop gcv fuel r.2 [] r.1).isSome = true := by
  obtain ⟨n1, h1⟩ := floodLoop_term_aux cf fvv gcv Hfill Hkeep
    (floodableCount cf g) (staleCount cf g start) g start [] hR hstart rfl rfl
  obtain ⟨r, hr⟩ := Option.isSome_iff_exists.1 h1
  obtain ⟨g1, next1⟩ := r
  obtain ⟨hR1, _, _⟩ := floodLoop_preserves cf fvv gcv Hkeep n1 ⟨g, start, []⟩ hR hstart g1 next1 hr
  have hV : ∀ c : ℤ × ℤ, c ∈ cellFinset g1 → ∀ o ∈ nodeOrigins next1,
      φ (max minDistanceSq (((c.1 : ℚ) - o.1) * ((c.1 : ℚ) - o.1)
        + ((c.2 : ℚ) - o.2) * ((c.2 : ℚ) - o.2))) ∈
      contourValues φ g1 (nodeOrigins next1) := by
    intro c hc o ho
    unfold contourValues
    exact Finset.mem_image.2 ⟨(c, o), Finset.mem_product.2 ⟨hc, ho⟩, rfl⟩
  have hcur : ∀ nd ∈ next1, (nd.originX, nd.originY) ∈ nodeOrigins next1 := by
    intro nd hnd
    unfold nodeOrigins
    rw [List.mem_toFinset]
    exact List.mem_map.2 ⟨nd, hnd, rfl⟩
  have h2 := shadeLoop_term_aux gcv φ rel Htrans Hirr Hφ Hrel (nodeOrigins next1)
    (contourValues φ g1 (nodeOrigins next1))
    (shadeMeasure rel (contourValues φ g1 (nodeOrigins next1)) g1 next1 [] + 1)
    next1 [] g1 hR1 hV hcur (by simp) (by omega)
  obtain ⟨gf, hgf⟩ := Option.isSome_iff_exists.1 h2
  refine ⟨max n1 (shadeMeasure rel (contourValues φ g1 (nodeOrigins next1)) g1 next1 [] + 1),
    (g1, next1), ?_, ?_⟩
  · exact floodLoop_mono cf fvv gcv n1 _ _ _ hr (le_max_left _ _)
  · rw [shadeLoop_mono gcv _ _ next1 [] g1 gf hgf (le_max_right _ _)]
    rfl

/-- C2, amended: with the grid finite (rectangular, as the constructor
builds it), `fillFrom` terminates for every real argument value, and
`unfillFrom` terminates whenever `0 ≤ valueMin` (so that the filling value 0
does not itself satisfy the flood predicate — by the counterexample this is
the exact repair the claim needs): the flood phase performs finitely many
stack operations and the layered shading phase reaches an empty layer, i.e.
some finite fuel makes the fuelled model return a result. -/
theorem fillFrom_unfillFrom_terminate (g : ScalarField) (hR : g.Rectangular)
    (originX originY valueMax valueMin thickness cappingFactor : ℚ) :
    (∃ fuel, (g.fillFromF fuel originX originY valueMax thickness cappingFactor).isSome
      = true) ∧
    (0 ≤ valueMin →
      ∃ fuel, (g.unfillFromF fuel originX originY valueMin thickness cappingFactor).isSome
        = true) := by
  constructor
  · obtain ⟨fuel, r, hflood, hshade⟩ := floodThenShade_term
      (fun fieldValue => decide (fieldValue < valueMax))
      (max valueMax (thickness * thickness * 1024 * 1024))
      (fillGetContourValue (thickness * thickness)
        (cappingFactor * thickness * (cappingFactor * thickness)))
      (fun d => thickness * thickness / d) (· < ·)
      (by simp)
      (by
        intro a d v hsome hfa
        unfold fillGetContourValue at hsome
        simp only at hsome
        split at hsome
        · next hc =>
            obtain rfl : thickness * thickness / d = v := Option.some_injective _ hsome
            simp only [decide_eq_false_iff_not, not_lt] at hfa ⊢
            exact le_of_lt (lt_of_le_of_lt hfa hc.1)
        · exact absurd hsome (by simp))
      (fun a b c => lt_trans) (fun a => lt_irrefl a)
      (by
        intro a d v hsome
        unfold fillGetContourValue at hsome
        simp only at hsome
        split at hsome
        · exact (Option.some_injective _ hsome).symm
        · exact absurd hsome (by simp))
      (by
        intro a d v hsome
        unfold fillGetContourValue at hsome
        simp only at hsome
        split at hsome
        · next hc =>
            obtain rfl : thickness * thickness / d = v := Option.some_injective _ hsome
            exact hc.1
        · exact absurd hsome (by simp))
      g hR
      (floodSeed (fun fieldValue => decide (fieldValue < valueMax)) g originX originY)
      (floodSeed_inside _ g originX originY)
    obtain ⟨g1, next1⟩ := r
    refine ⟨fuel, ?_⟩
    simp only [ScalarField.fillFromF]
    rw [hflood]
    exact hshade
  · intro hmin
    obtain ⟨fuel, r, hflood, hshade⟩ := floodThenShade_term
      (fun fieldValue => decide (valueMin < fieldValue)) 0
      (unfillGetContourValue (thickness * thickness)
        (cappingFactor * thickness * (cappingFactor * thickness)))
      (fun d => d / (thickness * thickness)) (fun a b => b < a)
      (by simpa using hmin)
      (by
        intro a d v hsome hfa
        unfold unfillGetContourValue at hsome
        simp only at hsome
        split at hsome
        · next hc =>
            obtain rfl : d / (thickness * thickness) = v := Option.some_injective _ hsome
            simp only [decide_eq_false_iff_not, not_lt] at hfa ⊢
            exact le_of_lt (lt_of_lt_of_le hc.1 hfa)
        · exact absurd hsome (by simp))
      (fun a b c hab hbc => lt_trans hbc hab) (fun a => lt_irrefl a)
      (by
        intro a d v hsome
        unfold unfillGetContourValue at hsome
        simp only at hsome
        split at hsome
        · exact (Option.some_injective _ hsome).symm
        · exact absurd hsome (by simp))
      (by
        intro a d v hsome
        unfold unfillGetContourValue at hsome
        simp only at hsome
        split at hsome
        · next hc =>
            obtain rfl : d / (thickness * thickness) = v := Option.some_injective _ hsome
            exact hc.1
        · exact absurd hsome (by simp))
      g hR
      (floodSeed (fun fieldValue => decide (valueMin < fieldValue)) g originX originY)
      (floodSeed_inside _ g originX originY)
    obtain ⟨g1, next1⟩ := r
    refine ⟨fuel, ?_⟩
    simp only [ScalarField.unfillFromF]
    rw [hflood]
    exact hshade

/-- C2, witness: on a concrete 2×2 zero grid, both `fillFrom` and
`unfillFrom` (with `valueMin = 0`) reach a result for some fuel. -/
theorem fillFrom_unfillFrom_terminate_witness :
    (∃ fuel, ((⟨[[0, 0], [0, 0]]⟩ : ScalarField).fillFromF fuel 0 0 1 1 2).isSome = true) ∧
    (∃ fuel, ((⟨[[0, 0], [0, 0]]⟩ : ScalarField).unfillFromF fuel 0 0 0 1 2).isSome = true) :=
  ⟨(fillFrom_unfillFrom_terminate ⟨[[0, 0], [0, 0]]⟩ (by decide) 0 0 1 0 1 2).1,
    (fillFrom_unfillFrom_terminate ⟨[[0, 0], [0, 0]]⟩ (by decide) 0 0 1 0 1 2).2 le_rfl⟩

/-! Pointwise effect of a raw write, without any rectangularity assumption,
and elementary facts about 4-connected chains. -/

theorem get_set_dichotomy (g : ScalarField) (x y x' y' : ℤ) (v : ℚ) :
    (g.set x y v).get x' y' = g.get x' y' ∨
      ((g.set x y v).get x' y' = v ∧ g.get x' y' = g.get x y) := by
  unfold ScalarField.get ScalarField.set
  dsimp only
  rw [list_getD_set]
  by_cases hy : y.toNat = y'.toNat ∧ y'.toNat < g.values.length
  · rw [if_pos hy, list_getD_set]
    by_cases hx : x.toNat = x'.toNat ∧ x'.toNat < (g.values.getD y.toNat []).length
    · rw [if_pos hx]
      right
      refine ⟨rfl, ?_⟩
      rw [← hy.1, ← hx.1]
    · rw [if_neg hx, hy.1]
      left; rfl
  · rw [if_neg hy]
    left; rfl

theorem get_set_other (g : ScalarField) {x y x' y' : ℤ} (h0x : 0 ≤ x) (h0y : 0 ≤ y)
    (h0x' : 0 ≤ x') (h0y' : 0 ≤ y') (v : ℚ) :
    (x', y') = (x, y) ∨ (g.set x y v).get x' y' = g.get x' y' := by
  by_cases hc : (x', y') = (x, y)
  · exact Or.inl hc
  · exact Or.inr (get_set_ne g h0x h0y h0x' h0y' hc v)

theorem chain_mono {P Q : ℤ × ℤ → Prop} (h : ∀ d, P d → Q d) :
    ∀ {a c : ℤ × ℤ}, Chain P a c → Chain Q a c := by
  intro a c hch
  induction hch with
  | refl hc => exact Chain.refl a (h a hc)
  | snoc b c hab hadj hc ih => exact Chain.snoc a b c ih hadj (h c hc)

theorem chain_start {P : ℤ × ℤ → Prop} : ∀ {a c : ℤ × ℤ}, Chain P a c → P a := by
  intro a c hch
  induction hch with
  | refl hc => exact hc
  | snoc b c hab hadj hc ih => exact ih

theorem chain_cons {P : ℤ × ℤ → Prop} :
    ∀ {b c : ℤ × ℤ}, Chain P b c → ∀ a : ℤ × ℤ, P a → Adjacent a b → Chain P a c := by
  intro b c h
  induction h with
  | refl hc =>
    intro a ha hadj
    exact Chain.snoc a a b (Chain.refl a ha) hadj hc
  | snoc d e hbd hde he ih =>
    intro a ha hadj
    exact Chain.snoc a d e (ih a ha hadj) hde he

theorem chain_last_avoid {P : ℤ × ℤ → Prop} (bad : ℤ × ℤ) :
    ∀ {a c : ℤ × ℤ}, Chain P a c → c = bad ∨
      ∃ a', Chain (fun d => P d ∧ d ≠ bad) a' c ∧
        (a' = a ∨ (Adjacent bad a' ∧ P a')) := by
  intro a c hch
  induction hch with
  | refl hc =>
    by_cases hcb : a = bad
    · exact Or.inl hcb
    · exact Or.inr ⟨a, Chain.refl a ⟨hc, hcb⟩, Or.inl rfl⟩
  | snoc b c hab hadj hc ih =>
    by_cases hcb : c = bad
    · exact Or.inl hcb
    · rcases ih with hbb | ⟨a', hch', hroot⟩
      · exact Or.inr ⟨c, Chain.refl c ⟨hc, hcb⟩, Or.inr ⟨hbb ▸ hadj, hc⟩⟩
      · exact Or.inr ⟨a', Chain.snoc a' b c hch' hadj ⟨hc, hcb⟩, hroot⟩

/-! When the contour-value function rejects every floored squared distance,
the contour machinery is inert: `fillFrom(_, _, valueMax, 0, _)` is a pure
flood fill. -/

theorem checkAnAdd_id (gcv : ℚ → ℚ → Option ℚ)
    (Hnone : ∀ a d, minDistanceSq ≤ d → gcv a d = none)
    (g : ScalarField) (next : List ContourNode) (nx ny : ℤ) (ox oy : ℚ) :
    checkAnAddContourNode gcv g next nx ny ox oy = (g, next) := by
  rcases checkAnAdd_cases gcv g next nx ny ox oy with h | ⟨v, _, hvsome, _⟩
  · exact h
  · rw [Hnone _ _ (le_max_left _ _)] at hvsome
    exact absurd hvsome (by simp)

theorem floodVisitList_pure (cf : ℚ → Bool) (gcv : ℚ → ℚ → Option ℚ)
    (Hnone : ∀ a d, minDistanceSq ≤ d → gcv a d = none) (x y : ℤ) :
    ∀ (l : List (ℤ × ℤ)) (st : FloodState),
      ∃ s : List Node, l.foldl (floodVisitOne cf gcv x y) st = ⟨st.g, s, st.next⟩ ∧
        ∀ nd : Node, nd ∈ s ↔ (nd ∈ st.stack ∨ ∃ δ ∈ l, nd = ⟨x + δ.1, y + δ.2⟩ ∧
          st.g.isInside ((x + δ.1 : ℤ) : ℚ) ((y + δ.2 : ℤ) : ℚ) = true ∧
          cf (st.g.get (x + δ.1) (y + δ.2)) = true) := by
  intro l
  induction l with
  | nil => intro st; exact ⟨st.stack, rfl, by simp⟩
  | cons δ l ih =>
    intro st
    rw [List.foldl_cons]
    by_cases hin : st.g.isInside ((x + δ.1 : ℤ) : ℚ) ((y + δ.2 : ℤ) : ℚ) = true
    · by_cases hcf : cf (st.g.get (x + δ.1) (y + δ.2)) = true
      · have hstep : floodVisitOne cf gcv x y st δ =
            ⟨st.g, ⟨x + δ.1, y + δ.2⟩ :: st.stack, st.next⟩ := by
          unfold floodVisitOne
          rw [if_pos hin, if_pos hcf]
        rw [hstep]
        obtain ⟨s, hs, hmem⟩ := ih ⟨st.g, ⟨x + δ.1, y + δ.2⟩ :: st.stack, st.next⟩
        dsimp only at hs hmem
        refine ⟨s, hs, fun nd => ?_⟩
        rw [hmem nd]
        constructor
        · rintro (h | ⟨δ', hδ', hcond⟩)
          · rcases List.mem_cons.1 h with rfl | h'
            · exact Or.inr ⟨δ, List.mem_cons_self δ l, rfl, hin, hcf⟩
            · exact Or.inl h'
          · exact Or.inr ⟨δ', List.mem_cons_of_mem _ hδ', hcond⟩
        · rintro (h | ⟨δ', hδ', hcond⟩)
          · exact Or.inl (List.mem_cons_of_mem _ h)
          · rcases List.mem_cons.1 hδ' with rfl | hδl
            · exact Or.inl (by rw [hcond.1]; exact List.mem_cons_self _ _)
            · exact Or.inr ⟨δ', hδl, hcond⟩
      · have hstep : floodVisitOne cf gcv x y st δ = st := by
          unfold floodVisitOne
          rw [if_pos hin, if_neg hcf, checkAnAdd_id gcv Hnone]
        rw [hstep]
        obtain ⟨s, hs, hmem⟩ := ih st
        refine ⟨s, hs, fun nd => ?_⟩
        rw [hmem nd]
        constructor
        · rintro (h | ⟨δ', hδ', hcond⟩)
          · exact Or.inl h
          · exact Or.inr ⟨δ', List.mem_cons_of_mem _ hδ', hcond⟩
        · rintro (h | ⟨δ', hδ', hcond⟩)
          · exact Or.inl h
          · rcases List.mem_cons.1 hδ' with rfl | hδl
            · exact absurd hcond.2.2 hcf
            · exact Or.inr ⟨δ', hδl, hcond⟩
    · have hstep : floodVisitOne cf gcv x y st δ = st := by
        unfold floodVisitOne
        rw [if_neg hin]
      rw [hstep]
      obtain ⟨s, hs, hmem⟩ := ih st
      refine ⟨s, hs, fun nd => ?_⟩
      rw [hmem nd]
      constructor
      · rintro (h | ⟨δ', hδ', hcond⟩)
        · exact Or.inl h
        · exact Or.inr ⟨δ', List.mem_cons_of_mem _ hδ', hcond⟩
      · rintro (h | ⟨δ', hδ', hcond⟩)
        · exact Or.inl h
        · rcases List.mem_cons.1 hδ' with rfl | hδl
          · exact absurd hcond.2.1 hin
          · exact Or.inr ⟨δ', hδl, hcond⟩

theorem shadeLoop_pure (gcv : ℚ → ℚ → Option ℚ)
    (Hnone : ∀ a d, minDistanceSq ≤ d → gcv a d = none) :
    ∀ (fuel : ℕ) (cur next : List ContourNode) (g g' : ScalarField),
      shadeLoop gcv fuel cur next g = some g' → g' = g := by
  intro fuel
  induction fuel with
  | zero => intro cur next g g' h; exact absurd h (by simp [shadeLoop])
  | succ fuel ih =>
    intro cur next g g' h
    match cur, next with
    | [], [] =>
      rw [show shadeLoop gcv (fuel + 1) [] [] g = some g from rfl] at h
      exact (Option.some_injective _ h).symm
    | [], node :: rest => exact ih _ _ _ _ h
    | node :: rest, next =>
      have hfold : ∀ (l : List (ℤ × ℤ)) (p : ScalarField × List ContourNode),
          l.foldl (fun p d => checkAnAddContourNode gcv p.1 p.2 (node.x + d.1)
            (node.y + d.2) node.originX node.originY) p = p := by
        intro l
        induction l with
        | nil => intro p; rfl
        | cons d l ihl =>
          intro p
          rw [List.foldl_cons, checkAnAdd_id gcv Hnone, ihl]
      have hstep : shadeStep gcv g node next = (g, next) := by
        unfold shadeStep shadeVisit
        split
        · rfl
        · exact hfold deltas (g, next)
      rw [show shadeLoop gcv (fuel + 1) (node :: rest) next g =
        shadeLoop gcv fuel rest (shadeStep gcv g node next).2
          (shadeStep gcv g node next).1 from rfl, hstep] at h
      exact ih _ _ _ _ h

theorem floodLoop_pure_persist (cf : ℚ → Bool) (vm : ℚ) (gcv : ℚ → ℚ → Option ℚ)
    (Hnone : ∀ a d, minDistanceSq ≤ d → gcv a d = none) :
    ∀ (fuel : ℕ) (g : ScalarField) (stack : List Node) (next : List ContourNode)
      (g' : ScalarField) (next' : List ContourNode),
      floodLoop cf vm gcv fuel ⟨g, stack, next⟩ = some (g', next') →
      ∀ x y : ℤ, g.get x y = vm → g'.get x y = vm := by
  intro fuel
  induction fuel with
  | zero => intro g stack next g' next' h; exact absurd h (by simp [floodLoop])
  | succ fuel ih =>
    intro g stack next g' next' h x y hxy
    match stack with
    | [] =>
      rw [show floodLoop cf vm gcv (fuel + 1) ⟨g, [], next⟩ = some (g, next) from rfl] at h
      obtain rfl : g = g' := congrArg Prod.fst (Option.some_injective _ h)
      exact hxy
    | node :: rest =>
      obtain ⟨s, hs, hmem⟩ := floodVisitList_pure cf gcv Hnone node.x node.y deltas
        ⟨g.set node.x node.y vm, rest, next⟩
      rw [show floodLoop cf vm gcv (fuel + 1) ⟨g, node :: rest, next⟩ =
        floodLoop cf vm gcv fuel (deltas.foldl (floodVisitOne cf gcv node.x node.y)
          ⟨g.set node.x node.y vm, rest, next⟩) from rfl, hs] at h
      dsimp only at h
      refine ih _ _ _ _ _ h x y ?_
      rcases get_set_dichotomy g node.x node.y x y vm with he | ⟨he, _⟩
      · rw [he]; exact hxy
      · rw [he]

theorem floodLoop_pure_sound (cf : ℚ → Bool) (vm : ℚ) (gcv : ℚ → ℚ → Option ℚ)
    (Hnone : ∀ a d, minDistanceSq ≤ d → gcv a d = none) (Hcf : cf vm = false) :
    ∀ (fuel : ℕ) (g : ScalarField) (stack : List Node) (next : List ContourNode)
      (g' : ScalarField) (next' : List ContourNode),
      floodLoop cf vm gcv fuel ⟨g, stack, next⟩ = some (g', next') →
      g.Rectangular →
      (∀ n ∈ stack, g.isInside (n.x : ℚ) (n.y : ℚ) = true) →
      ∀ x y : ℤ, 0 ≤ x → 0 ≤ y →
        g'.get x y = g.get x y ∨
          (g'.get x y = vm ∧ ∃ n ∈ stack, ((x, y) = (n.x, n.y) ∨
            ∃ m, Adjacent (n.x, n.y) m ∧
              Chain (fun d => g.isInside (d.1 : ℚ) (d.2 : ℚ) = true ∧
                cf (g.get d.1 d.2) = true) m (x, y))) := by
  intro fuel
  induction fuel with
  | zero => intro g stack next g' next' h; exact absurd h (by simp [floodLoop])
  | succ fuel ih =>
    intro g stack next g' next' h hR hins x y h0x h0y
    match stack with
    | [] =>
      rw [show floodLoop cf vm gcv (fuel + 1) ⟨g, [], next⟩ = some (g, next) from rfl] at h
      obtain rfl : g = g' := congrArg Prod.fst (Option.some_injective _ h)
      exact Or.inl rfl
    | node :: rest =>
      have hnode := hins node (List.mem_cons_self node rest)
      have hnodeb := (isInside_intCast g node.x node.y).1 hnode
      obtain ⟨s, hs, hmem⟩ := floodVisitList_pure cf gcv Hnone node.x node.y deltas
        ⟨g.set node.x node.y vm, rest, next⟩
      rw [show floodLoop cf vm gcv (fuel + 1) ⟨g, node :: rest, next⟩ =
        floodLoop cf vm gcv fuel (deltas.foldl (floodVisitOne cf gcv node.x node.y)
          ⟨g.set node.x node.y vm, rest, next⟩) from rfl, hs] at h
      dsimp only at h hmem
      have hg1in : ∀ a b : ℚ, (g.set node.x node.y vm).isInside a b = g.isInside a b :=
        isInside_set g node.x node.y vm
      have hg1node : (g.set node.x node.y vm).get node.x node.y = vm :=
        get_set_eq g hR hnode vm
      have hg1get : ∀ a b : ℤ, (a, b) ≠ (node.x, node.y) → 0 ≤ a → 0 ≤ b →
          (g.set node.x node.y vm).get a b = g.get a b :=
        fun a b hne ha hb => get_set_ne g hnodeb.1 hnodeb.2.2.1 ha hb hne vm
      have hR1 : (g.set node.x node.y vm).Rectangular := rect_set _ _ _ _ hR
      have hins1 : ∀ n ∈ s, (g.set node.x node.y vm).isInside (n.x : ℚ) (n.y : ℚ) = true := by
        intro n hn
        rcases (hmem n).1 hn with hr | ⟨δ, hδ, rfl, hinn, hcfn⟩
        · rw [hg1in]; exact hins n (List.mem_cons_of_mem _ hr)
        · exact hinn
      have hPimp : ∀ d : ℤ × ℤ,
          ((g.set node.x node.y vm).isInside (d.1 : ℚ) (d.2 : ℚ) = true ∧
            cf ((g.set node.x node.y vm).get d.1 d.2) = true) →
          (g.isInside (d.1 : ℚ) (d.2 : ℚ) = true ∧ cf (g.get d.1 d.2) = true) := by
        intro d hd
        have hdin : g.isInside (d.1 : ℚ) (d.2 : ℚ) = true := (hg1in _ _) ▸ hd.1
        have hdb := (isInside_intCast g d.1 d.2).1 hdin
        have hdne : (d.1, d.2) ≠ (node.x, node.y) := by
          intro hc
          have h1 := congrArg Prod.fst hc
          have h2 := congrArg Prod.snd hc
          dsimp only at h1 h2
          rw [h1, h2, hg1node, Hcf] at hd
          exact Bool.false_ne_true hd.2
        exact ⟨hdin, by rw [← hg1get d.1 d.2 hdne hdb.1 hdb.2.2.1]; exact hd.2⟩
      rcases ih _ s next g' next' h hR1 hins1 x y h0x h0y with h1 | ⟨hvm, n', hn', hroot⟩
      · rcases get_set_other g hnodeb.1 hnodeb.2.2.1 h0x h0y vm with hceq | hne
        · have hx' : x = node.x := congrArg Prod.fst hceq
          have hy' : y = node.y := congrArg Prod.snd hceq
          right
          refine ⟨?_, node, List.mem_cons_self _ _, Or.inl hceq⟩
          rw [h1, hx', hy', hg1node]
        · exact Or.inl (by rw [h1, hne])
      · right
        refine ⟨hvm, ?_⟩
        rcases (hmem n').1 hn' with hr | ⟨δ, hδ, hn'eq, hinn', hcfn'⟩
        · refine ⟨n', List.mem_cons_of_mem _ hr, ?_⟩
          rcases hroot with hxy | ⟨m, hadj, hch⟩
          · exact Or.inl hxy
          · exact Or.inr ⟨m, hadj, chain_mono hPimp hch⟩
        · subst hn'eq
          have hnein : g.isInside ((node.x + δ.1 : ℤ) : ℚ) ((node.y + δ.2 : ℤ) : ℚ) = true :=
            (hg1in _ _) ▸ hinn'
          have hb := (isInside_intCast g _ _).1 hnein
          have hne : ((node.x + δ.1 : ℤ), (node.y + δ.2 : ℤ)) ≠ (node.x, node.y) := by
            intro hc
            have h1 := congrArg Prod.fst hc
            have h2 := congrArg Prod.snd hc
            dsimp only at h1 h2
            rw [h1, h2, hg1node, Hcf] at hcfn'
            exact Bool.false_ne_true hcfn'
          have hP' : g.isInside ((node.x + δ.1 : ℤ) : ℚ) ((node.y + δ.2 : ℤ) : ℚ) = true ∧
              cf (g.get (node.x + δ.1) (node.y + δ.2)) = true :=
            ⟨hnein, by rw [← hg1get _ _ hne hb.1 hb.2.2.1]; exact hcfn'⟩
          refine ⟨node, List.mem_cons_self _ _,
            Or.inr ⟨(node.x + δ.1, node.y + δ.2), ⟨δ, hδ, rfl⟩, ?_⟩⟩
          rcases hroot with hxy | ⟨m, hadj, hch⟩
          · rw [hxy]
            exact Chain.refl _ hP'
          · exact chain_cons (chain_mono hPimp hch) _ hP' hadj

theorem floodLoop_pure_complete (cf : ℚ → Bool) (vm : ℚ) (gcv : ℚ → ℚ → Option ℚ)
    (Hnone : ∀ a d, minDistanceSq ≤ d → gcv a d = none) (_Hcf : cf vm = false) :
    ∀ (fuel : ℕ) (g : ScalarField) (stack : List Node) (next : List ContourNode)
      (g' : ScalarField) (next' : List ContourNode),
      floodLoop cf vm gcv fuel ⟨g, stack, next⟩ = some (g', next') →
      g.Rectangular →
      (∀ n ∈ stack, g.isInside (n.x : ℚ) (n.y : ℚ) = true) →
      ∀ c : ℤ × ℤ, (∃ n ∈ stack,
        Chain (fun d => g.isInside (d.1 : ℚ) (d.2 : ℚ) = true ∧
          cf (g.get d.1 d.2) = true) (n.x, n.y) c) →
      g'.get c.1 c.2 = vm := by
  intro fuel
  induction fuel with
  | zero => intro g stack next g' next' h; exact absurd h (by simp [floodLoop])
  | succ fuel ih =>
    intro g stack next g' next' h hR hins c hc
    match stack with
    | [] =>
      obtain ⟨n, hn, _⟩ := hc
      exact absurd hn (List.not_mem_nil n)
    | node :: rest =>
      have hnode := hins node (List.mem_cons_self node rest)
      have hnodeb := (isInside_intCast g node.x node.y).1 hnode
      obtain ⟨s, hs, hmem⟩ := floodVisitList_pure cf gcv Hnone node.x node.y deltas
        ⟨g.set node.x node.y vm, rest, next⟩
      rw [show floodLoop cf vm gcv (fuel + 1) ⟨g, node :: rest, next⟩ =
        floodLoop cf vm gcv fuel (deltas.foldl (floodVisitOne cf gcv node.x node.y)
          ⟨g.set node.x node.y vm, rest, next⟩) from rfl, hs] at h
      dsimp only at h hmem
      have hg1in : ∀ a b : ℚ, (g.set node.x node.y vm).isInside a b = g.isInside a b :=
        isInside_set g node.x node.y vm
      have hg1node : (g.set node.x node.y vm).get node.x node.y = vm :=
        get_set_eq g hR hnode vm
      have hg1get : ∀ a b : ℤ, (a, b) ≠ (node.x, node.y) → 0 ≤ a → 0 ≤ b →
          (g.set node.x node.y vm).get a b = g.get a b :=
        fun a b hne ha hb => get_set_ne g hnodeb.1 hnodeb.2.2.1 ha hb hne vm
      have hR1 : (g.set node.x node.y vm).Rectangular := rect_set _ _ _ _ hR
      have hins1 : ∀ n ∈ s, (g.set node.x node.y vm).isInside (n.x : ℚ) (n.y : ℚ) = true := by
        intro n hn
        rcases (hmem n).1 hn with hr | ⟨δ, hδ, rfl, hinn, hcfn⟩
        · rw [hg1in]; exact hins n (List.mem_cons_of_mem _ hr)
        · exact hinn
      have hPimp' : ∀ d : ℤ × ℤ,
          ((g.isInside (d.1 : ℚ) (d.2 : ℚ) = true ∧ cf (g.get d.1 d.2) = true) ∧
            d ≠ (node.x, node.y)) →
          ((g.set node.x node.y vm).isInside (d.1 : ℚ) (d.2 : ℚ) = true ∧
            cf ((g.set node.x node.y vm).get d.1 d.2) = true) := by
        intro d hd
        have hdb := (isInside_intCast g d.1 d.2).1 hd.1.1
        refine ⟨(hg1in _ _).symm ▸ hd.1.1, ?_⟩
        rw [hg1get d.1 d.2 (by simpa [Prod.ext_iff] using hd.2) hdb.1 hdb.2.2.1]
        exact hd.1.2
      obtain ⟨n₀, hn₀, hch⟩ := hc
      rcases chain_last_avoid (node.x, node.y) hch with hcbad | ⟨a', hch', hroot⟩
      · subst hcbad
        exact floodLoop_pure_persist cf vm gcv Hnone fuel _ s next g' next' h
          node.x node.y hg1node
      · have hstart := chain_start hch'
        rcases hroot with rfl | ⟨hadjbad, hPa'⟩
        · rcases List.mem_cons.1 hn₀ with rfl | hrest
          · exact absurd rfl hstart.2
          · refine ih _ s next g' next' h hR1 hins1 c ⟨n₀, (hmem n₀).2 (Or.inl hrest), ?_⟩
            exact chain_mono hPimp' hch'
        · obtain ⟨δ, hδ, ha'⟩ := hadjbad
          have ha'b := (isInside_intCast g a'.1 a'.2).1 hPa'.1
          have ha'cf : cf ((g.set node.x node.y vm).get a'.1 a'.2) = true := by
            rw [hg1get a'.1 a'.2 (by simpa [Prod.ext_iff] using hstart.2) ha'b.1 ha'b.2.2.1]
            exact hPa'.2
          have ha'in : (g.set node.x node.y vm).isInside (a'.1 : ℚ) (a'.2 : ℚ) = true :=
            (hg1in _ _).symm ▸ hPa'.1
          have hmemn : (⟨a'.1, a'.2⟩ : Node) ∈ s := by
            refine (hmem ⟨a'.1, a'.2⟩).2 (Or.inr ⟨δ, hδ, ?_, ?_, ?_⟩)
            · rw [ha']
            · rw [show ((node.x, node.y).1 + δ.1 : ℤ) = (node.x + δ.1 : ℤ) from rfl] at ha'
              rw [show a'.1 = node.x + δ.1 from congrArg Prod.fst ha',
                show a'.2 = node.y + δ.2 from congrArg Prod.snd ha'] at ha'in
              exact ha'in
            · rw [show a'.1 = node.x + δ.1 from congrArg Prod.fst ha',
                show a'.2 = node.y + δ.2 from congrArg Prod.snd ha'] at ha'cf
              exact ha'cf
          refine ih _ s next g' next' h hR1 hins1 c ⟨⟨a'.1, a'.2⟩, hmemn, ?_⟩
          exact chain_mono hPimp' hch'

set_option maxRecDepth 40000 in
/-- C1: for `fillFrom(originX, originY, 1, 0, 1)` with the rounded origin cell
inside the grid and of value < 1, the call is a pure flood fill: some fuel
yields a result in which every cell 4-connected-reachable from the rounded
origin through cells of value < 1 holds the filling value `max(1, 0²·2²⁰) = 1`,
and every other in-bounds cell holds exactly its previous value; in particular
on the repository's 8×8 hollow-square fixture the sixteen interior cells are
set to 1 and everything else is unchanged. -/
theorem fillFrom_floods_reachable_region (g : ScalarField) (hR : g.Rectangular)
    (originX originY : ℚ)
    (hin : g.isInside ((round originX : ℤ) : ℚ) ((round originY : ℤ) : ℚ) = true)
    (hval : g.get (round originX) (round originY) < 1) :
    (∃ fuel g', g.fillFromF fuel originX originY 1 0 1 = some g' ∧
      (∀ c : ℤ × ℤ, Reaches g 1 (round originX, round originY) c →
        g'.get c.1 c.2 = 1) ∧
      (∀ c : ℤ × ℤ, g.isInside (c.1 : ℚ) (c.2 : ℚ) = true →
        ¬ Reaches g 1 (round originX, round originY) c →
        g'.get c.1 c.2 = g.get c.1 c.2)) ∧
    squareFixture.fillFromF 200 4 4 1 0 1 = some squareFixtureFilled := by
  have Hnone : ∀ a d : ℚ, minDistanceSq ≤ d →
      fillGetContourValue (0 * 0) (1 * 0 * (1 * 0)) a d = none := by
    intro a d hd
    have hd0 : (0 : ℚ) < d := lt_of_lt_of_le (by norm_num [minDistanceSq]) hd
    unfold fillGetContourValue
    simp only
    rw [if_neg]
    rintro ⟨-, h2⟩
    norm_num at h2
    linarith
  constructor
  · obtain ⟨fuel, r, hflood, hshade⟩ := floodThenShade_term
      (fun fieldValue => decide (fieldValue < 1)) 1
      (fillGetContourValue (0 * 0) (1 * 0 * (1 * 0)))
      (fun _ => 0) (· < ·)
      (by norm_num)
      (by
        intro a d v hsome hfa
        unfold fillGetContourValue at hsome
        simp only at hsome
        split at hsome
        · next hc =>
            exfalso
            have h1 := hc.1
            norm_num at h1
            simp only [decide_eq_false_iff_not, not_lt] at hfa
            linarith
        · exact absurd hsome (by simp))
      (fun a b c => lt_trans) (fun a => lt_irrefl a)
      (by
        intro a d v hsome
        unfold fillGetContourValue at hsome
        simp only at hsome
        split at hsome
        · have h := Option.some_injective _ hsome
          show v = 0
          rw [← h]
          norm_num
        · exact absurd hsome (by simp))
      (by
        intro a d v hsome
        unfold fillGetContourValue at hsome
        simp only at hsome
        split at hsome
        · next hc =>
            obtain rfl := Option.some_injective _ hsome
            exact hc.1
        · exact absurd hsome (by simp))
      g hR
      (floodSeed (fun fieldValue => decide (fieldValue < 1)) g originX originY)
      (floodSeed_inside _ g originX originY)
    obtain ⟨g1, next1⟩ := r
    obtain ⟨gf, hgf⟩ := Option.isSome_iff_exists.1 hshade
    obtain rfl : g1 = gf := (shadeLoop_pure _ Hnone fuel next1 [] g1 gf hgf).symm
    have hseed : floodSeed (fun fieldValue => decide (fieldValue < 1)) g originX originY =
        [⟨round originX, round originY⟩] := by
      unfold floodSeed
      rw [if_pos]
      rw [Bool.and_eq_true]
      exact ⟨hin, decide_eq_true hval⟩
    have hsound := floodLoop_pure_sound (fun fieldValue => decide (fieldValue < 1)) 1
      (fillGetContourValue (0 * 0) (1 * 0 * (1 * 0))) Hnone (by norm_num) fuel g
      (floodSeed (fun fieldValue => decide (fieldValue < 1)) g originX originY) [] g1 next1
      hflood hR (floodSeed_inside _ g originX originY)
    have hcomp := floodLoop_pure_complete (fun fieldValue => decide (fieldValue < 1)) 1
      (fillGetContourValue (0 * 0) (1 * 0 * (1 * 0))) Hnone (by norm_num) fuel g
      (floodSeed (fun fieldValue => decide (fieldValue < 1)) g originX originY) [] g1 next1
      hflood hR (floodSeed_inside _ g originX originY)
    refine ⟨fuel, g1, ?_, ?_, ?_⟩
    · simp only [ScalarField.fillFromF]
      rw [show (max (1 : ℚ) (0 * 0 * 1024 * 1024)) = 1 from by norm_num, hflood]
      exact hgf
    · intro c hreach
      have hch : Chain (fun d : ℤ × ℤ => g.isInside (d.1 : ℚ) (d.2 : ℚ) = true ∧
          decide (g.get d.1 d.2 < 1) = true) (round originX, round originY) c :=
        chain_mono (fun d hd => ⟨hd.1, decide_eq_true hd.2⟩) hreach
      exact hcomp c ⟨⟨round originX, round originY⟩,
        by rw [hseed]; exact List.mem_singleton.2 rfl, hch⟩
    · intro c hcin hnr
      have hb := (isInside_intCast g c.1 c.2).1 hcin
      rcases hsound c.1 c.2 hb.1 hb.2.2.1 with h1 | ⟨_, n, hn, hroot⟩
      · exact h1
      · exfalso
        rw [hseed] at hn
        obtain rfl := List.mem_singleton.1 hn
        apply hnr
        rcases hroot with hxy | ⟨m, hadj, hch⟩
        · have hc1 : c.1 = round originX := congrArg Prod.fst hxy
          have hc2 : c.2 = round originY := congrArg Prod.snd hxy
          have hgoal : Reaches g 1 (round originX, round originY) (c.1, c.2) := by
            rw [hc1, hc2]
            exact Chain.refl _ ⟨hin, hval⟩
          exact hgoal
        · have hch' : Chain (FloodableLt g 1) m (c.1, c.2) :=
            chain_mono (fun d hd => ⟨hd.1, of_decide_eq_true hd.2⟩) hch
          exact chain_cons hch' _ ⟨hin, hval⟩ hadj
  · with_unfolding_all decide

/-- C1, witness: the flood-fill correctness statement instantiated on the
concrete 1×1 zero grid with origin (0, 0). -/
theorem fillFrom_floods_reachable_region_witness :
    (∃ fuel g', ((⟨[[0]]⟩ : ScalarField).fillFromF fuel 0 0 1 0 1) = some g' ∧
      (∀ c : ℤ × ℤ, Reaches ⟨[[0]]⟩ 1 (round (0 : ℚ), round (0 : ℚ)) c →
        g'.get c.1 c.2 = 1) ∧
      (∀ c : ℤ × ℤ, (⟨[[0]]⟩ : ScalarField).isInside (c.1 : ℚ) (c.2 : ℚ) = true →
        ¬ Reaches ⟨[[0]]⟩ 1 (round (0 : ℚ), round (0 : ℚ)) c →
        g'.get c.1 c.2 = (⟨[[0]]⟩ : ScalarField).get c.1 c.2)) ∧
    squareFixture.fillFromF 200 4 4 1 0 1 = some squareFixtureFilled :=
  fillFrom_floods_reachable_region ⟨[[0]]⟩ (by decide) 0 0
    (by with_unfolding_all decide) (by with_unfolding_all decide)

/-! Pointwise monotonicity of `fillFrom`: the flood phase writes the filling
value on previously smaller cells, the shading phase only raises values. -/

theorem floodSeed_floodable (cf : ℚ → Bool) (g : ScalarField) (ox oy : ℚ) :
    ∀ n ∈ floodSeed cf g ox oy, cf (g.get n.x n.y) = true := by
  intro n hn
  unfold floodSeed at hn
  by_cases h : (g.isInside ((round ox : ℤ) : ℚ) ((round oy : ℤ) : ℚ)
      && cf (g.get (round ox) (round oy))) = true
  · rw [if_pos h] at hn
    rcases List.mem_singleton.1 hn with rfl
    exact (Bool.and_eq_true _ _ ▸ h).2
  · rw [if_neg h] at hn
    exact absurd hn (List.not_mem_nil n)

theorem checkAnAdd_fst_mono (gcv : ℚ → ℚ → Option ℚ)
    (Hgt : ∀ a d v, minDistanceSq ≤ d → gcv a d = some v → a ≤ v)
    (g : ScalarField) (next : List ContourNode) (nx ny : ℤ) (ox oy : ℚ) (x' y' : ℤ) :
    g.get x' y' ≤ (checkAnAddContourNode gcv g next nx ny ox oy).1.get x' y' := by
  rcases checkAnAdd_cases gcv g next nx ny ox oy with h | ⟨v, _, hvsome, h⟩
  · rw [h]
  · rw [h]
    have hav : g.get nx ny ≤ v := Hgt _ _ _ (le_max_left _ _) hvsome
    rcases get_set_dichotomy g nx ny x' y' v with he | ⟨he, hsame⟩
    · rw [he]
    · rw [he, hsame]
      exact hav

theorem shadeVisit_fold_mono (gcv : ℚ → ℚ → Option ℚ)
    (Hgt : ∀ a d v, minDistanceSq ≤ d → gcv a d = some v → a ≤ v) (node : ContourNode) :
    ∀ (l : List (ℤ × ℤ)) (p : ScalarField × List ContourNode) (x' y' : ℤ),
      p.1.get x' y' ≤ (l.foldl (fun p d => checkAnAddContourNode gcv p.1 p.2
        (node.x + d.1) (node.y + d.2) node.originX node.originY) p).1.get x' y' := by
  intro l
  induction l with
  | nil => intro p x' y'; exact le_refl _
  | cons δ l ih =>
    intro p x' y'
    rw [List.foldl_cons]
    exact le_trans (checkAnAdd_fst_mono gcv Hgt p.1 p.2 _ _ _ _ x' y') (ih _ x' y')

theorem shadeStep_fst_mono (gcv : ℚ → ℚ → Option ℚ)
    (Hgt : ∀ a d v, minDistanceSq ≤ d → gcv a d = some v → a ≤ v)
    (g : ScalarField) (node : ContourNode) (next : List ContourNode) (x' y' : ℤ) :
    g.get x' y' ≤ (shadeStep gcv g node next).1.get x' y' := by
  unfold shadeStep shadeVisit
  split
  · exact le_refl _
  · exact shadeVisit_fold_mono gcv Hgt node deltas (g, next) x' y'

theorem shadeLoop_mono_grid (gcv : ℚ → ℚ → Option ℚ)
    (Hgt : ∀ a d v, minDistanceSq ≤ d → gcv a d = some v → a ≤ v) :
    ∀ (fuel : ℕ) (cur next : List ContourNode) (g g' : ScalarField),
      shadeLoop gcv fuel cur next g = some g' →
      ∀ x' y' : ℤ, g.get x' y' ≤ g'.get x' y' := by
  intro fuel
  induction fuel with
  | zero => intro cur next g g' h; exact absurd h (by simp [shadeLoop])
  | succ fuel ih =>
    intro cur next g g' h x' y'
    match cur, next with
    | [], [] =>
      rw [show shadeLoop gcv (fuel + 1) [] [] g = some g from rfl] at h
      rw [(Option.some_injective _ h)]
    | [], node :: rest => exact ih _ _ _ _ h x' y'
    | node :: rest, next =>
      rw [show shadeLoop gcv (fuel + 1) (node :: rest) next g =
        shadeLoop gcv fuel rest (shadeStep gcv g node next).2
          (shadeStep gcv g node next).1 from rfl] at h
      exact le_trans (shadeStep_fst_mono gcv Hgt g node next x' y') (ih _ _ _ _ h x' y')

theorem floodVisit_fold_mono (cf : ℚ → Bool) (gcv : ℚ → ℚ → Option ℚ) (fvv : ℚ)
    (Hgt : ∀ a d v, minDistanceSq ≤ d → gcv a d = some v → a ≤ v)
    (Hle : ∀ a d v, minDistanceSq ≤ d → gcv a d = some v → v ≤ fvv)
    (Hcf : ∀ a, cf a = true → a ≤ fvv) (x y : ℤ) :
    ∀ (l : List (ℤ × ℤ)) (st : FloodState),
      (∀ n ∈ st.stack, st.g.get n.x n.y ≤ fvv) →
      (∀ x' y' : ℤ, st.g.get x' y' ≤ (l.foldl (floodVisitOne cf gcv x y) st).g.get x' y') ∧
      (∀ n ∈ (l.foldl (floodVisitOne cf gcv x y) st).stack,
        (l.foldl (floodVisitOne cf gcv x y) st).g.get n.x n.y ≤ fvv) := by
  intro l
  induction l with
  | nil => intro st hstk; exact ⟨fun x' y' => le_refl _, hstk⟩
  | cons δ l ih =>
    intro st hstk
    rw [List.foldl_cons]
    have hone : (∀ x' y' : ℤ, st.g.get x' y' ≤ (floodVisitOne cf gcv x y st δ).g.get x' y') ∧
        (∀ n ∈ (floodVisitOne cf gcv x y st δ).stack,
          (floodVisitOne cf gcv x y st δ).g.get n.x n.y ≤ fvv) := by
      unfold floodVisitOne
      by_cases hin : st.g.isInside ((x + δ.1 : ℤ) : ℚ) ((y + δ.2 : ℤ) : ℚ) = true
      · rw [if_pos hin]
        by_cases hcf : cf (st.g.get (x + δ.1) (y + δ.2)) = true
        · rw [if_pos hcf]
          refine ⟨fun x' y' => le_refl _, ?_⟩
          intro n hn
          rcases List.mem_cons.1 hn with rfl | hn'
          · exact Hcf _ hcf
          · exact hstk n hn'
        · rw [if_neg hcf]
          rcases checkAnAdd_cases gcv st.g st.next (x + δ.1) (y + δ.2) (x : ℚ) (y : ℚ) with
            h | ⟨v, _, hvsome, h⟩
          · rw [h]
            exact ⟨fun x' y' => le_refl _, hstk⟩
          · rw [h]
            have hvle : v ≤ fvv := Hle _ _ _ (le_max_left _ _) hvsome
            have hav : st.g.get (x + δ.1) (y + δ.2) ≤ v :=
              Hgt _ _ _ (le_max_left _ _) hvsome
            constructor
            · intro x' y'
              rcases get_set_dichotomy st.g (x + δ.1) (y + δ.2) x' y' v with he | ⟨he, hsame⟩
              · rw [he]
              · rw [he, hsame]
                exact hav
            · intro n hn
              rcases get_set_dichotomy st.g (x + δ.1) (y + δ.2) n.x n.y v with he | ⟨he, _⟩
              · rw [he]
                exact hstk n hn
              · rw [he]
                exact hvle
      · rw [if_neg hin]
        exact ⟨fun x' y' => le_refl _, hstk⟩
    obtain ⟨hmono1, hstk1⟩ := hone
    obtain ⟨hmono2, hstk2⟩ := ih (floodVisitOne cf gcv x y st δ) hstk1
    exact ⟨fun x' y' => le_trans (hmono1 x' y') (hmono2 x' y'), hstk2⟩

theorem floodLoop_mono_grid (cf : ℚ → Bool) (fvv : ℚ) (gcv : ℚ → ℚ → Option ℚ)
    (Hgt : ∀ a d v, minDistanceSq ≤ d → gcv a d = some v → a ≤ v)
    (Hle : ∀ a d v, minDistanceSq ≤ d → gcv a d = some v → v ≤ fvv)
    (Hcf : ∀ a, cf a = true → a ≤ fvv) :
    ∀ (fuel : ℕ) (g : ScalarField) (stack : List Node) (next : List ContourNode)
      (g' : ScalarField) (next' : List ContourNode),
      floodLoop cf fvv gcv fuel ⟨g, stack, next⟩ = some (g', next') →
      (∀ n ∈ stack, g.get n.x n.y ≤ fvv) →
      ∀ x' y' : ℤ, g.get x' y' ≤ g'.get x' y' := by
  intro fuel
  induction fuel with
  | zero => intro g stack next g' next' h; exact absurd h (by simp [floodLoop])
  | succ fuel ih =>
    intro g stack next g' next' h hstk x' y'
    match stack with
    | [] =>
      rw [show floodLoop cf fvv gcv (fuel + 1) ⟨g, [], next⟩ = some (g, next) from rfl] at h
      obtain rfl : g = g' := congrArg Prod.fst (Option.some_injective _ h)
      exact le_refl _
    | node :: rest =>
      have hhead := hstk node (List.mem_cons_self node rest)
      have hstk1 : ∀ n ∈ rest, (g.set node.x node.y fvv).get n.x n.y ≤ fvv := by
        intro n hn
        rcases get_set_dichotomy g node.x node.y n.x n.y fvv with he | ⟨he, _⟩
        · rw [he]
          exact hstk n (List.mem_cons_of_mem _ hn)
        · rw [he]
      obtain ⟨hmonoF, hstkF⟩ := floodVisit_fold_mono cf gcv fvv Hgt Hle Hcf node.x node.y
        deltas ⟨g.set node.x node.y fvv, rest, next⟩ hstk1
      rw [show floodLoop cf fvv gcv (fuel + 1) ⟨g, node :: rest, next⟩ =
        floodLoop cf fvv gcv fuel (deltas.foldl (floodVisitOne cf gcv node.x node.y)
          ⟨g.set node.x node.y fvv, rest, next⟩) from rfl] at h
      have hset : g.get x' y' ≤ (g.set node.x node.y fvv).get x' y' := by
        rcases get_set_dichotomy g node.x node.y x' y' fvv with he | ⟨he, hsame⟩
        · rw [he]
        · rw [he, hsame]
          exact hhead
      exact le_trans hset (le_trans (hmonoF x' y')
        (ih _ _ _ _ _ h hstkF x' y'))

/-- C10: `fillFrom` is pointwise monotone non-decreasing on the field: when
the fuelled model returns a grid, every cell's value is ≥ its previous value —
the flood phase writes the filling value `max(valueMax, thickness²·2²⁰)`,
which bounds every stack cell's current value from above, and the shading
phase only writes contour values strictly above the cell's current value. -/
theorem fillFrom_pointwise_monotone (g : ScalarField) (fuel : ℕ)
    (originX originY valueMax thickness cappingFactor : ℚ) (g' : ScalarField)
    (h : g.fillFromF fuel originX originY valueMax thickness cappingFactor = some g') :
    ∀ x y : ℤ, g.get x y ≤ g'.get x y := by
  simp only [ScalarField.fillFromF] at h
  have Hgt : ∀ a d v : ℚ, minDistanceSq ≤ d →
      fillGetContourValue (thickness * thickness)
        (cappingFactor * thickness * (cappingFactor * thickness)) a d = some v → a ≤ v := by
    intro a d v _ hsome
    unfold fillGetContourValue at hsome
    simp only at hsome
    split at hsome
    · next hc =>
        obtain rfl := Option.some_injective _ hsome
        exact le_of_lt hc.1
    · exact absurd hsome (by simp)
  have Hle : ∀ a d v : ℚ, minDistanceSq ≤ d →
      fillGetContourValue (thickness * thickness)
        (cappingFactor * thickness * (cappingFactor * thickness)) a d = some v →
      v ≤ max valueMax (thickness * thickness * 1024 * 1024) := by
    intro a d v hd hsome
    unfold fillGetContourValue at hsome
    simp only at hsome
    split at hsome
    · next hc =>
        obtain rfl := Option.some_injective _ hsome
        have hd' : (1 : ℚ) / 1024 / 1024 ≤ d := by
          unfold minDistanceSq at hd
          exact hd
        have hd0 : (0 : ℚ) < d := lt_of_lt_of_le (by norm_num) hd'
        refine le_trans ?_ (le_max_right valueMax (thickness * thickness * 1024 * 1024))
        rw [div_le_iff₀ hd0]
        have hkey : (0 : ℚ) ≤ (thickness * thickness) * (1024 * 1024 * d - 1) :=
          mul_nonneg (mul_self_nonneg thickness) (by linarith)
        nlinarith [hkey]
    · exact absurd hsome (by simp)
  have Hcf : ∀ a : ℚ, (fun fieldValue => decide (fieldValue < valueMax)) a = true →
      a ≤ max valueMax (thickness * thickness * 1024 * 1024) := by
    intro a ha
    simp only [decide_eq_true_eq] at ha
    exact le_of_lt (lt_of_lt_of_le ha (le_max_left _ _))
  cases hflood : floodLoop (fun fieldValue => decide (fieldValue < valueMax))
      (max valueMax (thickness * thickness * 1024 * 1024))
      (fillGetContourValue (thickness * thickness)
        (cappingFactor * thickness * (cappingFactor * thickness))) fuel
      ⟨g, floodSeed (fun fieldValue => decide (fieldValue < valueMax)) g originX originY,
        []⟩ with
  | none =>
    rw [hflood] at h
    exact absurd h (by simp)
  | some r =>
    obtain ⟨g1, next1⟩ := r
    rw [hflood] at h
    intro x y
    have hstk : ∀ n ∈ floodSeed (fun fieldValue => decide (fieldValue < valueMax))
        g originX originY,
        g.get n.x n.y ≤ max valueMax (thickness * thickness * 1024 * 1024) :=
      fun n hn => Hcf _ (floodSeed_floodable _ g originX originY n hn)
    have step1 : g.get x y ≤ g1.get x y :=
      floodLoop_mono_grid (fun fieldValue => decide (fieldValue < valueMax))
        (max valueMax (thickness * thickness * 1024 * 1024))
        (fillGetContourValue (thickness * thickness)
          (cappingFactor * thickness * (cappingFactor * thickness)))
        Hgt Hle Hcf fuel g _ [] g1 next1 hflood hstk x y
    have step2 : g1.get x y ≤ g'.get x y :=
      shadeLoop_mono_grid (fillGetContourValue (thickness * thickness)
        (cappingFactor * thickness * (cappingFactor * thickness)))
        Hgt fuel next1 [] g1 g' h x y
    exact le_trans step1 step2

/-- C10, witness: the monotonicity statement applied at a concrete call on the
1×1 zero grid, whose result grid holds 1 at the origin cell. -/
theorem fillFrom_pointwise_monotone_witness :
    (⟨[[0]]⟩ : ScalarField).get 0 0 ≤ (⟨[[1]]⟩ : ScalarField).get 0 0 :=
  fillFrom_pointwise_monotone ⟨[[0]]⟩ 3 0 0 1 0 1 ⟨[[1]]⟩
    (by with_unfolding_all decide) 0 0
